import Mathlib

/-!
Verification development for the IntelliScan OCR application (`app.py`).

The source program is a Flask application whose core consists of
`EntityExtractor` (regex-based entity extraction), `DocumentProcessor`
(`process_image` / `process_pdf`, OCR with confidence scoring) and the
`upload_file` request handler.  The two OCR engines (`pytesseract`,
`pdf2image`) are external black boxes, so their outputs (recognized text,
per-word confidence data, rasterized page list) are *inputs* of the
embedded functions, exactly as the specification treats them.

Python floats are idealized as rationals (`ℚ`); Python's `round(x, 2)`
is modelled as round-half-to-even at two decimals.  Python strings are
`List Char`.
-/

/-- Python `\w` (ASCII range, which is all the program's data uses):
letters, digits, underscore. -/
def isWordChar (c : Char) : Bool :=
  c.isAlpha || c.isDigit || c = '_'

/-- Python `\s` (ASCII range): space, tab, newline, carriage return,
vertical tab, form feed. -/
def isPySpace (c : Char) : Bool :=
  c = ' ' || c = '\t' || c = '\n' || c = '\r' ||
  c = Char.ofNat 11 || c = Char.ofNat 12

/-! ## A backtracking regular-expression engine

Python's `re` module scans left to right; at each position the match
produced is the first one in backtracking priority order (alternation
prefers the left branch, greedy repetition prefers more repetitions).
The engine below implements exactly that priority order: `runF` returns
the list of possible engine states after a match attempt, in priority
order, and the scanner takes the head.

A state is the pair (previous character, remaining input); the previous
character is needed by the `\b` word-boundary assertion.  Repetition is
not allowed to match an empty iteration (Python's rule for repeats), so
a fuel of `length + 1` is always sufficient; the fuel only decreases
when a `star` iteration has consumed at least one character. -/

inductive RE where
  | eps : RE
  | cls (p : Char → Bool) : RE
  | seq (a b : RE) : RE
  | alt (a b : RE) : RE
  | star (r : RE) : RE
  | wb : RE

/-- Engine state: the character just before the current position
(`none` at the start of the text) and the remaining input. -/
abbrev RState := Option Char × List Char

/-- Is `none`/a character a word character (for `\b`). -/
def wordB : Option Char → Bool
  | some c => isWordChar c
  | none => false

/-- The `\b` assertion at a state: the word-ness of the previous
character differs from the word-ness of the next character. -/
def boundaryB (p : Option Char) (r : List Char) : Bool :=
  wordB p != wordB (match r with | [] => none | c :: _ => some c)

/-- One level of the engine: `runSelf` is used for the next `star`
iteration (one fuel level down). -/
def runStep (runSelf : RE → Option Char → List Char → List RState) :
    RE → Option Char → List Char → List RState
  | .eps, p, r => [(p, r)]
  | .wb, p, r => if boundaryB p r then [(p, r)] else []
  | .cls q, _, r =>
    match r with
    | [] => []
    | c :: r' => if q c then [(some c, r')] else []
  | .seq a b, p, r =>
    (runStep runSelf a p r).flatMap fun s =>
      if s.2.length ≤ r.length then runStep runSelf b s.1 s.2 else []
  | .alt a b, p, r => runStep runSelf a p r ++ runStep runSelf b p r
  | .star a, p, r =>
    ((runStep runSelf a p r).flatMap fun s =>
      if s.2.length < r.length then runSelf (.star a) s.1 s.2 else []) ++ [(p, r)]

/-- Fuelled engine (structurally recursive, hence computable by the
kernel). -/
def runF : Nat → RE → Option Char → List Char → List RState
  | 0 => runStep fun _ _ _ => []
  | fuel + 1 => runStep (runF fuel)

/-- Run a pattern at one position; fuel `length + 1` suffices because
every repetition iteration consumes at least one character. -/
def runM (re : RE) (p : Option Char) (r : List Char) : List RState :=
  runF (r.length + 1) re p r

/-- The scanner behind `re.findall`: try a match at the current
position; on success emit the matched text and continue right after it,
otherwise advance one character.  (None of the program's patterns can
match the empty string, so the empty-match branch just advances, which
coincides with Python.) -/
def scanF : Nat → RE → Option Char → List Char → List (List Char)
  | 0, _, _, _ => []
  | fuel + 1, re, p, r =>
    match (runM re p r).head? with
    | some s =>
      if s.2.length < r.length then
        r.take (r.length - s.2.length) :: scanF fuel re s.1 s.2
      else
        match r with
        | [] => []
        | c :: r' => scanF fuel re (some c) r'
    | none =>
      match r with
      | [] => []
      | c :: r' => scanF fuel re (some c) r'

/-- `re.findall(pattern, text)` for a pattern without capturing groups:
the list of non-overlapping matches, left to right. -/
def pyFindall (re : RE) (t : List Char) : List (List Char) :=
  scanF (t.length + 1) re none t

/-! ### Pattern constructors mirroring the regex syntax -/

/-- Literal character. -/
def lit (c : Char) : RE := .cls (fun x => x = c)

/-- Case-insensitive literal character (`re.IGNORECASE`). -/
def litCI (c : Char) : RE := .cls (fun x => x.toLower = c.toLower)

/-- `r+` (greedy). -/
def rplus (r : RE) : RE := .seq r (.star r)

/-- `r?` (greedy: prefer presence). -/
def ropt (r : RE) : RE := .alt r .eps

/-- `r{n}`. -/
def rrep (r : RE) : Nat → RE
  | 0 => .eps
  | n + 1 => .seq r (rrep r n)

/-- Helper for `repRange`: alternation of `r{lo+k}`, `r{lo+k-1}`, …,
`r{lo}`, most repetitions first. -/
def repRangeAux (r : RE) (lo : Nat) : Nat → RE
  | 0 => rrep r lo
  | k + 1 => .alt (rrep r (lo + (k + 1))) (repRangeAux r lo k)

/-- `r{lo,hi}` (greedy: prefer more repetitions, so try `hi` first). -/
def repRange (r : RE) (lo hi : Nat) : RE :=
  repRangeAux r lo (hi - lo)

/-- A sequence of literal characters. -/
def strRE (cs : List Char) : RE :=
  cs.foldr (fun c acc => .seq (lit c) acc) .eps

/-- A sequence of case-insensitive literal characters. -/
def strCI (cs : List Char) : RE :=
  cs.foldr (fun c acc => .seq (litCI c) acc) .eps

/-! ## The `EntityExtractor` patterns, transcribed from `app.py` -/

/-- `[A-Za-z0-9._%+-]` (the email local part). -/
def emailLocalC (c : Char) : Bool :=
  c.isAlpha || c.isDigit || c = '.' || c = '_' || c = '%' || c = '+' || c = '-'

/-- `[A-Za-z0-9.-]` (the email domain part). -/
def emailDomainC (c : Char) : Bool :=
  c.isAlpha || c.isDigit || c = '.' || c = '-'

/-- `[A-Z|a-z]` — transcribed literally: it also contains the pipe
character. -/
def emailTldC (c : Char) : Bool :=
  ('A' ≤ c && c ≤ 'Z') || c = '|' || ('a' ≤ c && c ≤ 'z')

/-- `\b[A-Za-z0-9._%+-]+@[A-Za-z0-9.-]+\.[A-Z|a-z]{2,}\b` -/
def emailRE : RE :=
  .seq .wb (.seq (rplus (.cls emailLocalC))
    (.seq (lit '@') (.seq (rplus (.cls emailDomainC))
      (.seq (lit '.')
        (.seq (.seq (rrep (.cls emailTldC) 2) (.star (.cls emailTldC))) .wb)))))

/-- `[-.]` -/
def sepC (c : Char) : Bool := c = '-' || c = '.'

def digitC : RE := .cls Char.isDigit

/-- `\b\d{3}[-.]?\d{3}[-.]?\d{4}\b` -/
def phoneRE1 : RE :=
  .seq .wb (.seq (rrep digitC 3) (.seq (ropt (.cls sepC))
    (.seq (rrep digitC 3) (.seq (ropt (.cls sepC))
      (.seq (rrep digitC 4) .wb)))))

/-- `\b\(\d{3}\)\s*\d{3}[-.]?\d{4}\b` -/
def phoneRE2 : RE :=
  .seq .wb (.seq (lit '(') (.seq (rrep digitC 3) (.seq (lit ')')
    (.seq (.star (.cls isPySpace)) (.seq (rrep digitC 3)
      (.seq (ropt (.cls sepC)) (.seq (rrep digitC 4) .wb)))))))

/-- `\b\+\d{1,3}\s?\d{1,14}\b` -/
def phoneRE3 : RE :=
  .seq .wb (.seq (lit '+') (.seq (repRange digitC 1 3)
    (.seq (ropt (.cls isPySpace)) (.seq (repRange digitC 1 14) .wb))))

/-- The class of `/` or `-` (slash-or-dash separators). -/
def slashDashC (c : Char) : Bool := c = '/' || c = '-'

/-- `\b\d{1,2}` sep `\d{1,2}` sep `\d{2,4}\b` where sep is the
slash-or-dash class. -/
def dateRE1 : RE :=
  .seq .wb (.seq (repRange digitC 1 2) (.seq (.cls slashDashC)
    (.seq (repRange digitC 1 2) (.seq (.cls slashDashC)
      (.seq (repRange digitC 2 4) .wb)))))

/-- `\b\d{4}` sep `\d{1,2}` sep `\d{1,2}\b` where sep is the
slash-or-dash class. -/
def dateRE2 : RE :=
  .seq .wb (.seq (rrep digitC 4) (.seq (.cls slashDashC)
    (.seq (repRange digitC 1 2) (.seq (.cls slashDashC)
      (.seq (repRange digitC 1 2) .wb)))))

/-- `(?:Jan|Feb|Mar|Apr|May|Jun|Jul|Aug|Sep|Oct|Nov|Dec)` with
`re.IGNORECASE`, alternatives in source order. -/
def monthRE : RE :=
  [ "Feb", "Mar", "Apr", "May", "Jun", "Jul", "Aug", "Sep", "Oct", "Nov",
    "Dec" ].foldl (fun acc m => .alt acc (strCI m.data)) (strCI "Jan".data)

/-- `[a-z]` under `re.IGNORECASE` (so both cases). -/
def azCI (c : Char) : Bool := ('a' ≤ c.toLower && c.toLower ≤ 'z')

/-- `\b(?:Jan|...|Dec)[a-z]*\s+\d{1,2},?\s+\d{4}\b` (IGNORECASE). -/
def dateRE3 : RE :=
  .seq .wb (.seq monthRE (.seq (.star (.cls azCI))
    (.seq (rplus (.cls isPySpace)) (.seq (repRange digitC 1 2)
      (.seq (ropt (lit ',')) (.seq (rplus (.cls isPySpace))
        (.seq (rrep digitC 4) .wb)))))))

/-- `\$\s?\d+(?:,\d{3})*(?:\.\d{2})?` (first amount alternative). -/
def amountRE1 : RE :=
  .seq (lit '$') (.seq (ropt (.cls isPySpace)) (.seq (rplus digitC)
    (.seq (.star (.seq (lit ',') (rrep digitC 3)))
      (ropt (.seq (lit '.') (rrep digitC 2))))))

/-- `(?:USD|INR|EUR|GBP|dollars?|rupees?)` (IGNORECASE). -/
def currencyRE : RE :=
  .alt (strCI "USD".data) (.alt (strCI "INR".data) (.alt (strCI "EUR".data)
    (.alt (strCI "GBP".data)
      (.alt (.seq (strCI "dollar".data) (ropt (litCI 's')))
        (.seq (strCI "rupee".data) (ropt (litCI 's')))))))

/-- `\d+(?:,\d{3})*(?:\.\d{2})?\s?(?:USD|INR|EUR|GBP|dollars?|rupees?)`
(second amount alternative). -/
def amountRE2 : RE :=
  .seq (rplus digitC) (.seq (.star (.seq (lit ',') (rrep digitC 3)))
    (.seq (ropt (.seq (lit '.') (rrep digitC 2)))
      (.seq (ropt (.cls isPySpace)) currencyRE)))

/-- The full amounts pattern (top-level alternation, IGNORECASE). -/
def amountRE : RE := .alt amountRE1 amountRE2

/-- Characters excluded by the URL pattern's negated class
`[^\s<>"{}|\\^`[\]]` (codes 123/125 are the braces, 96 the backtick). -/
def urlExcluded : List Char :=
  ['<', '>', '"', Char.ofNat 123, Char.ofNat 125, '|', '\\', '^',
   Char.ofNat 96, '[', ']']

def urlC (c : Char) : Bool := !(isPySpace c) && !(urlExcluded.contains c)

/-- `https?://[^\s<>"{}|\\^`[\]]+` -/
def urlRE : RE :=
  .seq (strRE "http".data) (.seq (ropt (lit 's'))
    (.seq (strRE "://".data) (rplus (.cls urlC))))

/-! ## `EntityExtractor` itself

Python's `list(set(xs))` returns the distinct elements in an
unspecified order; it is modelled by `List.dedup`, which also returns
the distinct elements (every claim about the result is about its
elements, never about their order). -/

def extract_emails (t : List Char) : List (List Char) :=
  (pyFindall emailRE t).dedup

def extract_phones (t : List Char) : List (List Char) :=
  (pyFindall phoneRE1 t ++ pyFindall phoneRE2 t ++ pyFindall phoneRE3 t).dedup

def extract_dates (t : List Char) : List (List Char) :=
  (pyFindall dateRE1 t ++ pyFindall dateRE2 t ++ pyFindall dateRE3 t).dedup

def extract_amounts (t : List Char) : List (List Char) :=
  (pyFindall amountRE t).dedup

def extract_urls (t : List Char) : List (List Char) :=
  (pyFindall urlRE t).dedup

/-- The dictionary returned by `extract_all`: exactly the five keys of
the source dict, as a structure. -/
structure EntitySet where
  emails : List (List Char)
  phones : List (List Char)
  dates : List (List Char)
  amounts : List (List Char)
  urls : List (List Char)
deriving DecidableEq, Repr

/-- `EntityExtractor.extract_all` — a pure total function (its
determinism and non-failure are immediate from it being a Lean
function). -/
def extract_all (t : List Char) : EntitySet :=
  { emails := extract_emails t
    phones := extract_phones t
    dates := extract_dates t
    amounts := extract_amounts t
    urls := extract_urls t }

/-! ## Numeric model

Python floats are idealized as rationals.  `round(x, 2)` rounds to the
nearest multiple of 1/100, ties to even (Python's rounding mode). -/

/-- Round a rational to the nearest integer, ties to even. -/
def halfEven (q : ℚ) : ℤ :=
  let f := ⌊q⌋
  if q - f < 1 / 2 then f
  else if (1 : ℚ) / 2 < q - f then f + 1
  else if f % 2 = 0 then f else f + 1

/-- Python's `round(q, 2)`. -/
def round2 (q : ℚ) : ℚ := (halfEven (q * 100) : ℚ) / 100

/-! ## `DocumentProcessor`

`pytesseract.image_to_string` and `pytesseract.image_to_data` are
external engines; their outcomes are inputs here.  A confidence pass
yields the `data['conf']` column as integers (`int(conf)` in the
source), or an error. -/

/-- `confidences = [int(conf) for conf in data['conf'] if int(conf) > 0]`
then `sum(confidences) / len(confidences) if confidences else 0`. -/
def avgPositive (data : List Int) : ℚ :=
  let confidences := data.filter fun c => 0 < c
  if confidences.isEmpty then 0
  else (confidences.sum : ℚ) / (confidences.length : ℚ)

/-- The best-effort confidence pass: the `try`/`except` around
`image_to_data` — an error gives confidence 0 instead of failing. -/
def confFromPass : Except (List Char) (List Int) → ℚ
  | .ok data => avgPositive data
  | .error _ => 0

/-- Python `str.split()`: split on runs of whitespace, dropping empty
tokens.  (`acc` holds the current token reversed.) -/
def pySplitAux : List Char → List Char → List (List Char)
  | [], acc => if acc.isEmpty then [] else [acc.reverse]
  | c :: rest, acc =>
    if isPySpace c then
      if acc.isEmpty then pySplitAux rest [] else acc.reverse :: pySplitAux rest []
    else pySplitAux rest (c :: acc)

def pySplit (t : List Char) : List (List Char) := pySplitAux t []

/-- The errors the pipeline can raise: an unavailable backend
(`EngineUnavailable` in the specification's taxonomy) or a wrapped
backend failure (`ProcessingFailure`), carrying the message text. -/
inductive PErr where
  | engineUnavailable (msg : List Char)
  | processingFailure (msg : List Char)
deriving DecidableEq, Repr

/-- The dict returned by `DocumentProcessor.process_image`. -/
structure ImageResult where
  text : List Char
  confidence : ℚ
  word_count : Nat
  char_count : Nat
deriving DecidableEq, Repr

/-- `DocumentProcessor.process_image`.  `textPass` is the outcome of
opening the image and running `image_to_string` (any exception there is
caught by the outer handler and re-raised as "OCR processing failed"),
`confPass` the outcome of the `image_to_data` confidence pass. -/
def process_image (ocrAvailable : Bool)
    (textPass : Except (List Char) (List Char))
    (confPass : Except (List Char) (List Int)) : Except PErr ImageResult :=
  if !ocrAvailable then
    .error (.engineUnavailable "OCR libraries not installed. Please install pytesseract and Pillow.".data)
  else
    match textPass with
    | .error e => .error (.processingFailure ("OCR processing failed: ".data ++ e))
    | .ok text =>
      let avg_confidence := confFromPass confPass
      .ok { text := text
            confidence := round2 avg_confidence
            word_count := (pySplit text).length
            char_count := text.length }

/-- One rasterized PDF page, as seen by the per-page loop: its
`image_to_string` text and its best-effort confidence pass. -/
structure PageOCR where
  text : List Char
  confPass : Except (List Char) (List Int)

/-- The dict returned by `DocumentProcessor.process_pdf`. -/
structure PdfResult where
  text : List Char
  confidence : ℚ
  word_count : Nat
  char_count : Nat
  page_count : Nat
deriving DecidableEq, Repr

/-- Decimal digits of a positive number, via a fuelled division loop
(the fuel `n + 1` always suffices). -/
def digitChar : Nat → Char
  | 0 => '0' | 1 => '1' | 2 => '2' | 3 => '3' | 4 => '4'
  | 5 => '5' | 6 => '6' | 7 => '7' | 8 => '8' | 9 => '9'
  | _ => '*'

def natDigitsAux : Nat → Nat → List Char
  | 0, _ => []
  | fuel + 1, n => if n < 10 then [digitChar n] else natDigitsAux fuel (n / 10) ++ [digitChar (n % 10)]

/-- `str(n)` for a natural number. -/
def natDigits (n : Nat) : List Char := natDigitsAux (n + 1) n

/-- The page separator line: `f"--- Page {n} ---"`. -/
def headerChars (n : Nat) : List Char :=
  "--- Page ".data ++ natDigits n ++ " ---".data

/-- One entry of `all_text`: `f"--- Page {i+1} ---\n{text}"` for the
page at 0-based index `i`. -/
def pageChunk (i : Nat) (t : List Char) : List Char :=
  headerChars (i + 1) ++ '\n' :: t

/-- The rasterization step of `process_pdf`: the primary
`convert_from_path` attempt (dpi 200), falling back to the dpi-150
attempt when the primary raises. -/
def effImages (rasterPrimary rasterFallback : Except (List Char) (List PageOCR)) :
    Except (List Char) (List PageOCR) :=
  match rasterPrimary with
  | .ok images => .ok images
  | .error _ => rasterFallback

/-- `DocumentProcessor.process_pdf`.  The per-page texts and confidence
passes come from the rasterized pages; any uncaught exception inside
the body is re-raised as "PDF processing failed" by the outer handler. -/
def process_pdf (pdfAvailable ocrAvailable : Bool)
    (rasterPrimary rasterFallback : Except (List Char) (List PageOCR)) :
    Except PErr PdfResult :=
  if !pdfAvailable then
    .error (.engineUnavailable "PDF processing libraries not installed. Please install pdf2image and poppler.".data)
  else if !ocrAvailable then
    .error (.engineUnavailable "OCR libraries not installed. Please install pytesseract and Pillow.".data)
  else
    match effImages rasterPrimary rasterFallback with
    | .error e => .error (.processingFailure ("PDF processing failed: ".data ++ e))
    | .ok images =>
      if images.isEmpty then
        .error (.processingFailure "PDF processing failed: No pages found in PDF".data)
      else
        let all_text := images.enum.map fun ip => pageChunk ip.1 ip.2.text
        let combined_text := List.intercalate ['\n', '\n'] all_text
        let total_confidence := (images.map fun p => confFromPass p.confPass).sum
        let avg_confidence :=
          if images.isEmpty then 0 else total_confidence / (images.length : ℚ)
        .ok { text := combined_text
              confidence := round2 avg_confidence
              word_count := (pySplit combined_text).length
              char_count := combined_text.length
              page_count := images.length }

/-! ## The `/upload` handler

The handler's observable effects are modelled as an outcome record: the
HTTP status, the success flag, whether a history record was persisted,
whether the upload was saved to the temp path, and whether `os.remove`
was invoked on it.  `werkzeug.secure_filename` is an external
sanitizer; the model works with the sanitized name directly (for the
names used in the claims it is the identity). -/

structure UploadOutcome where
  status : Nat
  success : Bool
  historySaved : Bool
  tempSaved : Bool
  removeCalled : Bool
deriving DecidableEq, Repr

/-- The extension `filename.rsplit('.', 1)[1].lower()` (when a dot
exists). -/
def extOf (filename : List Char) : List Char :=
  ((filename.reverse.takeWhile fun c => c ≠ '.').reverse).map Char.toLower

/-- `ALLOWED_EXTENSIONS` -/
def allowedExtensions : List (List Char) :=
  ["png".data, "jpg".data, "jpeg".data, "pdf".data, "tiff".data, "bmp".data]

/-- `allowed_file`: a dot is present and the lowered extension is
allowed. -/
def allowed_file (filename : List Char) : Bool :=
  filename.contains '.' && allowedExtensions.contains (extOf filename)

/-- The `/upload` handler `upload_file`.  `hasFile` is `'file' in
request.files`; `saveOk` is whether `file.save` left a file at the
temp path (the `os.path.exists` check); `saveHistoryOk` is whether
`HistoryManager.save_result` succeeded; the two `proc*` arguments are
the outcome the core pipeline produces for this upload. -/
def upload_file (hasFile : Bool) (filename : List Char)
    (ocrAvailable pdfAvailable : Bool) (saveOk : Bool)
    (procPdf : Except PErr PdfResult) (procImg : Except PErr ImageResult)
    (saveHistoryOk : Bool) : UploadOutcome :=
  if !hasFile then ⟨400, false, false, false, false⟩
  else if filename.isEmpty then ⟨400, false, false, false, false⟩
  else if !allowed_file filename then ⟨400, false, false, false, false⟩
  else if !ocrAvailable then ⟨500, false, false, false, false⟩
  else if !saveOk then
    -- `raise Exception("File save failed")`: the handler's except block
    -- finds no file at the path, so no removal happens.
    ⟨500, false, false, false, false⟩
  else
    if extOf filename = "pdf".data then
      if !pdfAvailable then
        -- early `return jsonify(...), 500` inside the try block: no
        -- cleanup of the saved temp file is performed on this path.
        ⟨500, false, false, true, false⟩
      else
        match procPdf with
        | .error _ => ⟨500, false, false, true, true⟩
        | .ok _ =>
          if !saveHistoryOk then ⟨500, false, false, true, true⟩
          else ⟨200, true, true, true, true⟩
    else
      match procImg with
      | .error _ => ⟨500, false, false, true, true⟩
      | .ok _ =>
        if !saveHistoryOk then ⟨500, false, false, true, true⟩
        else ⟨200, true, true, true, true⟩

/-! ## Occurrences of the page-separator pattern

The separator pattern is `--- Page N ---` (a nonempty run of digits
between the fixed prefix `--- Page ` and the fixed suffix ` ---`).
`parseSep s` decides whether the pattern occurs at the start of `s`
(with the digit run maximal, as a regex quantifier would take it) and
returns its number; `sepNums s` collects the numbers of all occurrences
in order of their starting position. -/

def sepPre : List Char := "--- Page ".data
def sepPost : List Char := " ---".data

def charVal (c : Char) : Nat := c.toNat - 48

def digitsVal (ds : List Char) : Nat :=
  ds.foldl (fun a c => 10 * a + charVal c) 0

def parseSep (s : List Char) : Option Nat :=
  if sepPre.isPrefixOf s then
    let r := s.drop sepPre.length
    let ds := r.takeWhile Char.isDigit
    if ds.isEmpty then none
    else if sepPost.isPrefixOf (r.drop ds.length) then some (digitsVal ds)
    else none
  else none

/-- The numbers of the separator occurrences of a text, in order of
starting position. -/
def sepNums : List Char → List Nat
  | [] => []
  | c :: rest =>
    (match parseSep (c :: rest) with
     | some n => [n]
     | none => []) ++ sepNums rest

/-! ## Engine lemmas -/

theorem runStep_suffix
    (runSelf : RE → Option Char → List Char → List RState)
    (hSelf : ∀ re p r s, s ∈ runSelf re p r → s.2 <:+ r) :
    ∀ re p r s, s ∈ runStep runSelf re p r → s.2 <:+ r := by
  intro re
  induction re with
  | eps =>
    intro p r s hs
    simp [runStep] at hs
    simp [hs]
  | wb =>
    intro p r s hs
    simp [runStep] at hs
    rcases hs with ⟨-, hs⟩
    simp [hs]
  | cls q =>
    intro p r s hs
    cases r with
    | nil => simp [runStep] at hs
    | cons c r' =>
      simp only [runStep] at hs
      by_cases hq : q c
      · rw [if_pos hq] at hs
        simp only [List.mem_singleton] at hs
        subst hs
        exact List.suffix_cons c r'
      · rw [if_neg hq] at hs
        simp at hs
  | seq a b iha ihb =>
    intro p r s hs
    simp only [runStep, List.mem_flatMap] at hs
    rcases hs with ⟨s', hs', hmem⟩
    by_cases hl : s'.2.length ≤ r.length
    · rw [if_pos hl] at hmem
      exact (ihb s'.1 s'.2 s hmem).trans (iha p r s' hs')
    · rw [if_neg hl] at hmem
      simp at hmem
  | alt a b iha ihb =>
    intro p r s hs
    simp only [runStep, List.mem_append] at hs
    rcases hs with hs | hs
    · exact iha p r s hs
    · exact ihb p r s hs
  | star a iha =>
    intro p r s hs
    simp only [runStep, List.mem_append, List.mem_flatMap, List.mem_singleton] at hs
    rcases hs with ⟨s', hs', hmem⟩ | hs
    · by_cases hl : s'.2.length < r.length
      · rw [if_pos hl] at hmem
        exact (hSelf (.star a) s'.1 s'.2 s hmem).trans (iha p r s' hs')
      · rw [if_neg hl] at hmem
        simp at hmem
    · simp [hs]

theorem runF_suffix :
    ∀ fuel re p r s, s ∈ runF fuel re p r → s.2 <:+ r := by
  intro fuel
  induction fuel with
  | zero =>
    exact runStep_suffix _ (by intro re p r s hs; simp at hs)
  | succ fuel ih =>
    exact runStep_suffix _ ih

theorem runM_suffix (re : RE) (p : Option Char) (r : List Char) (s : RState)
    (hs : s ∈ runM re p r) : s.2 <:+ r :=
  runF_suffix _ re p r s hs

/-- Unfolding lemmas that discharge the structural guards (the guards
always hold, by `runF_suffix`). -/
theorem runF_eps (fuel : Nat) (p : Option Char) (r : List Char) :
    runF fuel .eps p r = [(p, r)] := by
  cases fuel <;> rfl

theorem runF_wb (fuel : Nat) (p : Option Char) (r : List Char) :
    runF fuel .wb p r = if boundaryB p r then [(p, r)] else [] := by
  cases fuel <;> rfl

theorem runF_cls (fuel : Nat) (q : Char → Bool) (p : Option Char) (r : List Char) :
    runF fuel (.cls q) p r =
      match r with
      | [] => []
      | c :: r' => if q c then [(some c, r')] else [] := by
  cases fuel <;> rfl

theorem runF_alt (fuel : Nat) (a b : RE) (p : Option Char) (r : List Char) :
    runF fuel (.alt a b) p r = runF fuel a p r ++ runF fuel b p r := by
  cases fuel <;> rfl

theorem runF_seq (fuel : Nat) (a b : RE) (p : Option Char) (r : List Char) :
    runF fuel (.seq a b) p r =
      (runF fuel a p r).flatMap fun s => runF fuel b s.1 s.2 := by
  have step : ∀ (g : RE → Option Char → List Char → List RState),
      runStep g (.seq a b) p r =
        (runStep g a p r).flatMap fun s =>
          if s.2.length ≤ r.length then runStep g b s.1 s.2 else [] := by
    intro g; rfl
  cases fuel with
  | zero =>
    rw [show runF 0 (.seq a b) p r = runStep (fun _ _ _ => []) (.seq a b) p r from rfl, step]
    refine List.flatMap_congr ?_
    intro s hs
    rw [if_pos ((runF_suffix 0 a p r s hs).length_le)]
    rfl
  | succ fuel =>
    rw [show runF (fuel + 1) (.seq a b) p r = runStep (runF fuel) (.seq a b) p r from rfl, step]
    refine List.flatMap_congr ?_
    intro s hs
    rw [if_pos ((runF_suffix (fuel + 1) a p r s hs).length_le)]
    rfl

theorem runF_star (fuel : Nat) (a : RE) (p : Option Char) (r : List Char) :
    runF (fuel + 1) (.star a) p r =
      ((runF (fuel + 1) a p r).flatMap fun s =>
        if s.2.length < r.length then runF fuel (.star a) s.1 s.2 else []) ++ [(p, r)] := rfl

/-- Every string produced by the scanner is a contiguous substring of
the scanned text. -/
theorem scanF_infix :
    ∀ fuel re p r x, x ∈ scanF fuel re p r → x <:+: r := by
  intro fuel
  induction fuel with
  | zero => intro re p r x hx; simp [scanF] at hx
  | succ fuel ih =>
    intro re p r x hx
    simp only [scanF] at hx
    rcases hh : (runM re p r).head? with - | s <;> rw [hh] at hx <;> simp only at hx
    · cases r with
      | nil => simp at hx
      | cons c r' =>
        exact (ih re (some c) r' x hx).trans (List.suffix_cons c r').isInfix
    · have hmem : s ∈ runM re p r := List.mem_of_mem_head? (by simp [hh])
      have hsuf : s.2 <:+ r := runM_suffix re p r s hmem
      by_cases hl : s.2.length < r.length
      · rw [if_pos hl] at hx
        rcases List.mem_cons.mp hx with hx | hx
        · rw [hx]
          exact (List.take_prefix _ r).isInfix
        · exact (ih re s.1 s.2 x hx).trans hsuf.isInfix
      · rw [if_neg hl] at hx
        cases r with
        | nil => simp at hx
        | cons c r' =>
          exact (ih re (some c) r' x hx).trans (List.suffix_cons c r').isInfix

theorem pyFindall_infix (re : RE) (t x : List Char) (hx : x ∈ pyFindall re t) :
    x <:+: t :=
  scanF_infix _ re none t x hx

/-! ## Numeric lemmas -/

theorem avgPositive_nonneg (data : List Int) : 0 ≤ avgPositive data := by
  unfold avgPositive
  by_cases h : (data.filter fun c => 0 < c).isEmpty
  · simp [h]
  · rw [if_neg h]
    apply div_nonneg
    · have : (0 : ℤ) ≤ (data.filter fun c => 0 < c).sum := by
        apply List.sum_nonneg
        intro x hx
        have := (List.mem_filter.mp hx).2
        simp at this
        omega
      exact_mod_cast this
    · positivity

theorem avgPositive_le_100 (data : List Int) (h : ∀ c ∈ data, c ≤ 100) :
    avgPositive data ≤ 100 := by
  unfold avgPositive
  by_cases he : (data.filter fun c => 0 < c).isEmpty
  · simp [he]
  · rw [if_neg he]
    set cs := data.filter fun c => 0 < c with hcs
    have hlen : 0 < cs.length := by
      cases hc : cs with
      | nil => rw [hc] at he; simp at he
      | cons a l => simp [hc]
    have hsum : cs.sum ≤ (cs.length : ℤ) * 100 := by
      calc cs.sum ≤ cs.length • (100 : ℤ) :=
            List.sum_le_card_nsmul cs 100 fun x hx => h x (List.mem_filter.mp hx).1
        _ = (cs.length : ℤ) * 100 := by simp [nsmul_eq_mul]
    rw [div_le_iff₀ (by exact_mod_cast hlen)]
    calc ((cs.sum : ℚ)) ≤ (cs.length : ℚ) * 100 := by exact_mod_cast hsum
      _ = 100 * (cs.length : ℚ) := by ring

theorem halfEven_nonneg (q : ℚ) (h : 0 ≤ q) : 0 ≤ halfEven q := by
  simp only [halfEven]
  have hf : (0 : ℤ) ≤ ⌊q⌋ := Int.floor_nonneg.mpr h
  split
  · exact hf
  · split
    · omega
    · split <;> omega

theorem halfEven_le (q : ℚ) (M : ℤ) (h : q ≤ (M : ℚ)) : halfEven q ≤ M := by
  simp only [halfEven]
  have hf : ⌊q⌋ ≤ M := by
    calc ⌊q⌋ ≤ ⌊(M : ℚ)⌋ := Int.floor_le_floor h
      _ = M := Int.floor_intCast M
  by_cases h1 : q - ⌊q⌋ < 1 / 2
  · simp only [if_pos h1]
    exact hf
  · simp only [if_neg h1]
    have hlt : (⌊q⌋ : ℚ) + 1 / 2 ≤ q := by
      have := Int.floor_le q
      push_neg at h1
      linarith
    have hstrict : ⌊q⌋ < M := by
      by_contra hc
      push_neg at hc
      have : (M : ℚ) ≤ ⌊q⌋ := by exact_mod_cast hc
      linarith
    split
    · omega
    · split <;> omega

theorem round2_nonneg (q : ℚ) (h : 0 ≤ q) : 0 ≤ round2 q := by
  unfold round2
  have : (0 : ℤ) ≤ halfEven (q * 100) := halfEven_nonneg _ (by positivity)
  have : (0 : ℚ) ≤ (halfEven (q * 100) : ℚ) := by exact_mod_cast this
  positivity

theorem round2_le_100 (q : ℚ) (h : q ≤ 100) : round2 q ≤ 100 := by
  unfold round2
  have h1 : q * 100 ≤ ((10000 : ℤ) : ℚ) := by push_cast; linarith
  have h2 : halfEven (q * 100) ≤ 10000 := halfEven_le _ _ h1
  have h3 : (halfEven (q * 100) : ℚ) ≤ 10000 := by exact_mod_cast h2
  linarith

theorem round2_zero : round2 0 = 0 := by
  norm_num [round2, halfEven]

/-! ## Lemmas about the page-separator pattern -/

theorem takeWhile_all_append (p : Char → Bool) (xs : List Char) (y : Char) (ys : List Char)
    (hxs : ∀ c ∈ xs, p c = true) (hy : p y = false) :
    (xs ++ y :: ys).takeWhile p = xs := by
  induction xs with
  | nil => simp [List.takeWhile, hy]
  | cons x xs ih =>
    have hx : p x = true := hxs x (List.mem_cons_self x xs)
    simp only [List.cons_append, List.takeWhile_cons, hx, if_true]
    rw [ih fun c hc => hxs c (List.mem_cons_of_mem x hc)]

/-- `parseSep` with its `let`-bindings expanded. -/
theorem parseSep_eq (s : List Char) : parseSep s =
    if sepPre.isPrefixOf s then
      if ((s.drop sepPre.length).takeWhile Char.isDigit).isEmpty then none
      else if sepPost.isPrefixOf
          ((s.drop sepPre.length).drop ((s.drop sepPre.length).takeWhile Char.isDigit).length) then
        some (digitsVal ((s.drop sepPre.length).takeWhile Char.isDigit))
      else none
    else none := rfl

theorem parseSep_eq_some_iff (s : List Char) (n : Nat) :
    parseSep s = some n ↔
      ∃ ds rest, ds ≠ [] ∧ (∀ c ∈ ds, c.isDigit = true) ∧
        s = sepPre ++ ds ++ sepPost ++ rest ∧ digitsVal ds = n := by
  constructor
  · intro h
    rw [parseSep_eq] at h
    by_cases hpre : sepPre.isPrefixOf s
    · rw [if_pos hpre] at h
      obtain ⟨t, ht⟩ := List.isPrefixOf_iff_prefix.mp hpre
      have hdrop : s.drop sepPre.length = t := by rw [← ht]; exact List.drop_left sepPre t
      rw [hdrop] at h
      by_cases hemp : (t.takeWhile Char.isDigit).isEmpty
      · rw [if_pos hemp] at h; exact absurd h (by simp)
      · rw [if_neg hemp] at h
        by_cases hpost : sepPost.isPrefixOf (t.drop (t.takeWhile Char.isDigit).length)
        · rw [if_pos hpost] at h
          obtain ⟨rest, hrest⟩ := List.isPrefixOf_iff_prefix.mp hpost
          obtain ⟨u, hu⟩ := List.takeWhile_prefix (l := t) Char.isDigit
          have hu2 : t.drop (t.takeWhile Char.isDigit).length = u := by
            have h2 := List.drop_left (t.takeWhile Char.isDigit) u
            rw [hu] at h2
            exact h2
          have hu3 : u = sepPost ++ rest := by rw [hrest]; exact hu2.symm
          refine ⟨t.takeWhile Char.isDigit, rest, ?_, ?_, ?_, ?_⟩
          · intro hnil; rw [hnil] at hemp; simp at hemp
          · intro c hc; exact List.mem_takeWhile_imp hc
          · conv_lhs => rw [← ht, ← hu, hu3]
            simp [List.append_assoc]
          · exact Option.some.inj h
        · rw [if_neg hpost] at h; exact absurd h (by simp)
    · rw [if_neg hpre] at h; exact absurd h (by simp)
  · rintro ⟨ds, rest, hne, hdig, rfl, rfl⟩
    rw [parseSep_eq]
    have hpre : sepPre.isPrefixOf (sepPre ++ ds ++ sepPost ++ rest) := by
      apply List.isPrefixOf_iff_prefix.mpr
      simp only [List.append_assoc]
      exact List.prefix_append sepPre _
    rw [if_pos hpre]
    have hdrop : (sepPre ++ ds ++ sepPost ++ rest).drop sepPre.length = ds ++ sepPost ++ rest := by
      simp only [List.append_assoc]
      exact List.drop_left sepPre _
    rw [hdrop]
    have htw : (ds ++ sepPost ++ rest).takeWhile Char.isDigit = ds := by
      have h2 : ds ++ sepPost ++ rest = ds ++ ' ' :: ("---".data ++ rest) := by
        simp [sepPost]
      rw [h2]
      exact takeWhile_all_append _ _ _ _ hdig (by decide)
    rw [htw]
    have hemp : ds.isEmpty = false := by
      cases ds with
      | nil => exact absurd rfl hne
      | cons a l => rfl
    rw [hemp]
    simp only [Bool.false_eq_true, if_false]
    have hdrop2 : (ds ++ sepPost ++ rest).drop ds.length = sepPost ++ rest := by
      simp only [List.append_assoc]
      exact List.drop_left ds _
    rw [hdrop2]
    rw [if_pos (List.isPrefixOf_iff_prefix.mpr (List.prefix_append sepPost rest))]

theorem parseSep_append_newline (a b : List Char) :
    parseSep (a ++ '\n' :: b) = parseSep a := by
  rcases h : parseSep a with - | n
  · rcases hext : parseSep (a ++ '\n' :: b) with - | m
    · rfl
    · exfalso
      obtain ⟨ds, rest, hne, hdig, heq, -⟩ := (parseSep_eq_some_iff _ m).mp hext
      by_cases hka : (sepPre ++ ds ++ sepPost).length ≤ a.length
      · have htake : (a ++ '\n' :: b).take (sepPre ++ ds ++ sepPost).length
            = sepPre ++ ds ++ sepPost := by
          rw [heq]; exact List.take_left _ _
        have htake2 : (a ++ '\n' :: b).take (sepPre ++ ds ++ sepPost).length
            = a.take (sepPre ++ ds ++ sepPost).length :=
          List.take_append_of_le_length hka
        have ha : a = sepPre ++ ds ++ sepPost ++
            a.drop (sepPre ++ ds ++ sepPost).length := by
          conv_lhs => rw [← List.take_append_drop (sepPre ++ ds ++ sepPost).length a]
          rw [← htake2, htake]
        have hsome : parseSep a = some (digitsVal ds) :=
          (parseSep_eq_some_iff _ _).mpr
            ⟨ds, a.drop (sepPre ++ ds ++ sepPost).length, hne, hdig, ha, rfl⟩
        rw [h] at hsome
        exact absurd hsome (by simp)
      · push_neg at hka
        have hmem : '\n' ∈ sepPre ++ ds ++ sepPost := by
          have h1 : '\n' ∈ (a ++ '\n' :: b).take (sepPre ++ ds ++ sepPost).length := by
            rw [List.take_append_eq_append_take]
            refine List.mem_append.mpr (Or.inr ?_)
            rcases hk2 : (sepPre ++ ds ++ sepPost).length - a.length with - | k2
            · omega
            · simp [List.take_cons]
          rw [heq, List.take_left] at h1
          exact h1
        rcases List.mem_append.mp hmem with hmem2 | hmem2
        · rcases List.mem_append.mp hmem2 with hmem3 | hmem3
          · exact absurd hmem3 (by decide)
          · have := hdig _ hmem3
            simp at this
        · exact absurd hmem2 (by decide)
  · obtain ⟨ds, rest, hne, hdig, heq, hval⟩ := (parseSep_eq_some_iff _ n).mp h
    exact (parseSep_eq_some_iff _ n).mpr
      ⟨ds, rest ++ '\n' :: b, hne, hdig, by rw [heq]; simp [List.append_assoc], hval⟩

theorem sepNums_cons (c : Char) (r : List Char) :
    sepNums (c :: r) =
      (match parseSep (c :: r) with | some n => [n] | none => []) ++ sepNums r := rfl

theorem parseSep_none_head (s : List Char) (h : s.head? ≠ some '-') : parseSep s = none := by
  rcases hp : parseSep s with - | n
  · rfl
  · obtain ⟨ds, rest, -, -, heq, -⟩ := (parseSep_eq_some_iff _ n).mp hp
    exact absurd (by rw [heq]; rfl) h

theorem sepNums_newline_cons (b : List Char) : sepNums ('\n' :: b) = sepNums b := by
  rw [sepNums_cons, parseSep_none_head _ (by simp)]
  rfl

theorem sepNums_append_newline (a b : List Char) :
    sepNums (a ++ '\n' :: b) = sepNums a ++ sepNums b := by
  induction a with
  | nil =>
    simp only [List.nil_append]
    rw [sepNums_newline_cons]
    rfl
  | cons c a ih =>
    simp only [List.cons_append]
    rw [sepNums_cons]
    have hp : parseSep (c :: (a ++ '\n' :: b)) = parseSep (c :: a) := by
      rw [← List.cons_append]
      exact parseSep_append_newline (c :: a) b
    rw [hp, ih, sepNums_cons c a, List.append_assoc]

theorem sepNums_intercalate (l : List (List Char)) :
    sepNums (List.intercalate ['\n', '\n'] l) = (l.map sepNums).flatten := by
  induction l with
  | nil => rfl
  | cons x l ih =>
    cases l with
    | nil => simp [List.intercalate, List.intersperse]
    | cons y l' =>
      have hstep : List.intercalate ['\n', '\n'] (x :: y :: l')
          = x ++ '\n' :: '\n' :: List.intercalate ['\n', '\n'] (y :: l') := by
        simp [List.intercalate, List.intersperse]
      rw [hstep, sepNums_append_newline, sepNums_newline_cons, ih]
      simp

theorem digitChar_isDigit (d : Nat) (h : d < 10) : (digitChar d).isDigit = true := by
  interval_cases d <;> decide

theorem charVal_digitChar (d : Nat) (h : d < 10) : charVal (digitChar d) = d := by
  interval_cases d <;> decide

theorem natDigitsAux_ne_nil (f n : Nat) (h : n < f) : natDigitsAux f n ≠ [] := by
  induction f generalizing n with
  | zero => omega
  | succ f ih =>
    rw [natDigitsAux]
    split
    · simp
    · simp

theorem natDigitsAux_digits (f n : Nat) (h : n < f) :
    ∀ c ∈ natDigitsAux f n, c.isDigit = true := by
  induction f generalizing n with
  | zero => omega
  | succ f ih =>
    intro c hc
    rw [natDigitsAux] at hc
    by_cases h10 : n < 10
    · rw [if_pos h10] at hc
      simp at hc
      rw [hc]
      exact digitChar_isDigit n h10
    · rw [if_neg h10] at hc
      rcases List.mem_append.mp hc with hc | hc
      · exact ih (n / 10) (by omega) c hc
      · simp at hc
        rw [hc]
        exact digitChar_isDigit _ (Nat.mod_lt _ (by omega))

theorem digitsVal_append_single (xs : List Char) (c : Char) :
    digitsVal (xs ++ [c]) = 10 * digitsVal xs + charVal c := by
  simp [digitsVal, List.foldl_append]

theorem digitsVal_natDigitsAux (f n : Nat) (h : n < f) :
    digitsVal (natDigitsAux f n) = n := by
  induction f generalizing n with
  | zero => omega
  | succ f ih =>
    rw [natDigitsAux]
    by_cases h10 : n < 10
    · rw [if_pos h10]
      have : digitsVal [digitChar n] = charVal (digitChar n) := by
        simp [digitsVal]
      rw [this, charVal_digitChar n h10]
    · rw [if_neg h10, digitsVal_append_single, ih (n / 10) (by omega),
        charVal_digitChar _ (Nat.mod_lt _ (by omega))]
      omega

theorem natDigits_ne_nil (n : Nat) : natDigits n ≠ [] :=
  natDigitsAux_ne_nil (n + 1) n (Nat.lt_succ_self n)

theorem natDigits_digits (n : Nat) : ∀ c ∈ natDigits n, c.isDigit = true :=
  natDigitsAux_digits (n + 1) n (Nat.lt_succ_self n)

theorem digitsVal_natDigits (n : Nat) : digitsVal (natDigits n) = n :=
  digitsVal_natDigitsAux (n + 1) n (Nat.lt_succ_self n)

theorem sepNums_digits_sepPost (ds : List Char) (hdig : ∀ c ∈ ds, c.isDigit = true) :
    sepNums (ds ++ sepPost) = [] := by
  induction ds with
  | nil => decide
  | cons d ds ih =>
    simp only [List.cons_append]
    rw [sepNums_cons, parseSep_none_head, ih fun c hc => hdig c (List.mem_cons_of_mem d hc)]
    · rfl
    · have hd := hdig d (List.mem_cons_self d ds)
      intro hcon
      rw [List.head?_cons] at hcon
      rw [Option.some.inj hcon] at hd
      exact absurd hd (by decide)

theorem sepPre_cons : sepPre = '-' :: '-' :: '-' :: ' ' :: 'P' :: 'a' :: 'g' :: 'e' :: ' ' :: [] := rfl

theorem sepNums_header (n : Nat) : sepNums (headerChars n) = [n] := by
  have hassoc : headerChars n =
      '-' :: '-' :: '-' :: ' ' :: 'P' :: 'a' :: 'g' :: 'e' :: ' ' :: (natDigits n ++ sepPost) := by
    simp [headerChars, sepPre, sepPost]
  have h0 : parseSep ('-' :: '-' :: '-' :: ' ' :: 'P' :: 'a' :: 'g' :: 'e' :: ' ' ::
      (natDigits n ++ sepPost)) = some n := by
    apply (parseSep_eq_some_iff _ n).mpr
    refine ⟨natDigits n, [], natDigits_ne_nil n, natDigits_digits n, ?_, digitsVal_natDigits n⟩
    rw [sepPre_cons]
    simp
  have h1 : parseSep ('-' :: '-' :: ' ' :: 'P' :: 'a' :: 'g' :: 'e' :: ' ' ::
      (natDigits n ++ sepPost)) = none := by
    rw [parseSep_eq, sepPre_cons]
    simp [List.isPrefixOf]
  have h2 : parseSep ('-' :: ' ' :: 'P' :: 'a' :: 'g' :: 'e' :: ' ' ::
      (natDigits n ++ sepPost)) = none := by
    rw [parseSep_eq, sepPre_cons]
    simp [List.isPrefixOf]
  rw [hassoc]
  simp only [sepNums_cons]
  rw [h0, h1, h2]
  rw [parseSep_none_head _ (by simp), parseSep_none_head _ (by simp),
    parseSep_none_head _ (by simp), parseSep_none_head _ (by simp),
    parseSep_none_head _ (by simp), parseSep_none_head _ (by simp)]
  rw [sepNums_digits_sepPost (natDigits n) (natDigits_digits n)]
  rfl

theorem sepNums_pageChunk (i : Nat) (t : List Char) (ht : sepNums t = []) :
    sepNums (pageChunk i t) = [i + 1] := by
  show sepNums (headerChars (i + 1) ++ '\n' :: t) = [i + 1]
  rw [sepNums_append_newline, sepNums_header, ht]
  simp

theorem flatten_enumFrom_chunks (pages : List PageOCR) :
    ∀ k, (∀ p ∈ pages, sepNums p.text = []) →
      ((pages.enumFrom k).map fun ip => sepNums (pageChunk ip.1 ip.2.text)).flatten
        = List.range' (k + 1) pages.length := by
  induction pages with
  | nil => intro k _; rfl
  | cons p ps ih =>
    intro k h
    rw [List.enumFrom_cons]
    simp only [List.map_cons, List.flatten_cons]
    rw [sepNums_pageChunk _ _ (h p (List.mem_cons_self p ps)),
      ih (k + 1) fun q hq => h q (List.mem_cons_of_mem _ hq)]
    simp [List.range'_succ]

/-! ## Lemmas about the loose-international phone pattern -/

/-- A digit is a word character. -/
theorem isWordChar_of_isDigit (c : Char) (h : c.isDigit = true) : isWordChar c = true := by
  simp [isWordChar, h]

/-- Running `r{k}` for a character class: consume exactly `k` matching
characters or fail. -/
theorem runF_rrep_cls (fuel k : Nat) (q : Char → Bool) (p : Option Char) (r : List Char) :
    runF fuel (rrep (.cls q) k) p r =
      if k ≤ r.length ∧ (r.take k).all q then
        [((r.take k).foldl (fun _ c => some c) p, r.drop k)]
      else [] := by
  induction k generalizing p r with
  | zero =>
    rw [rrep, runF_eps]
    simp
  | succ k ih =>
    rw [rrep, runF_seq, runF_cls]
    cases r with
    | nil => simp
    | cons c r' =>
      dsimp only
      by_cases hq : q c
      · rw [if_pos hq]
        simp only [List.flatMap_cons, List.flatMap_nil, List.append_nil]
        rw [ih]
        by_cases hcond : k ≤ r'.length ∧ (r'.take k).all q
        · rw [if_pos hcond, if_pos]
          · simp [List.take_succ_cons, List.drop_succ_cons, List.foldl_cons]
          · simp only [List.take_succ_cons, List.all_cons, List.length_cons, hq,
              Bool.true_and]
            exact ⟨by omega, hcond.2⟩
        · rw [if_neg hcond, if_neg]
          rintro ⟨h1, h2⟩
          simp only [List.take_succ_cons, List.all_cons, List.length_cons,
            Bool.and_eq_true] at h1 h2
          exact hcond ⟨by omega, h2.2⟩
      · rw [if_neg hq]
        simp only [List.flatMap_nil]
        rw [if_neg]
        rintro ⟨h1, h2⟩
        simp only [List.take_succ_cons, List.all_cons, Bool.and_eq_true] at h2
        exact absurd h2.1 hq

/-- Greedy repetition of a character class against `xs ++ tail` where
`xs` is the maximal matching run: the alternative consuming all of `xs`
is the first that succeeds, so it heads the result list. -/
theorem runF_repRangeAux_head (fuel : Nat) (q : Char → Bool) (lo m : Nat)
    (xs tail : List Char) (p : Option Char)
    (hall : ∀ c ∈ xs, q c = true)
    (htail : ∀ c, tail.head? = some c → q c = false)
    (hlo : lo ≤ xs.length) (hhi : xs.length ≤ lo + m) :
    ∃ junk, runF fuel (repRangeAux (.cls q) lo m) p (xs ++ tail)
      = (xs.foldl (fun _ c => some c) p, tail) :: junk := by
  have hx_take : (xs ++ tail).take xs.length = xs := List.take_left xs tail
  have hx_drop : (xs ++ tail).drop xs.length = tail := List.drop_left xs tail
  have hall_b : ((xs ++ tail).take xs.length).all q = true := by
    rw [hx_take]; exact List.all_eq_true.mpr hall
  have hxlen : xs.length ≤ (xs ++ tail).length := by simp
  have hsucc : runF fuel (rrep (.cls q) xs.length) p (xs ++ tail)
      = [(xs.foldl (fun _ c => some c) p, tail)] := by
    rw [runF_rrep_cls, if_pos ⟨hxlen, hall_b⟩, hx_take, hx_drop]
  have hfail : ∀ k, xs.length < k → runF fuel (rrep (.cls q) k) p (xs ++ tail) = [] := by
    intro k hk
    rw [runF_rrep_cls, if_neg]
    rintro ⟨h1, h2⟩
    cases tail with
    | nil =>
      simp at h1
      omega
    | cons c t' =>
      have hc : q c = false := htail c rfl
      have hmem : c ∈ (xs ++ c :: t').take k := by
        have hsplit : (xs ++ c :: t').take k = xs ++ (c :: t').take (k - xs.length) := by
          rw [List.take_append_eq_append_take, List.take_of_length_le (by omega)]
        rw [hsplit]
        refine List.mem_append.mpr (Or.inr ?_)
        rcases hk2 : k - xs.length with - | k2
        · omega
        · simp [List.take_succ_cons]
      have hq2 := List.all_eq_true.mp h2 c hmem
      rw [hc] at hq2
      exact absurd hq2 (by simp)
  induction m with
  | zero =>
    refine ⟨[], ?_⟩
    rw [repRangeAux, show lo = xs.length from by omega, hsucc]
  | succ m ihm =>
    rw [repRangeAux, runF_alt]
    by_cases htop : xs.length = lo + (m + 1)
    · rw [← htop, hsucc]
      exact ⟨_, rfl⟩
    · rw [hfail (lo + (m + 1)) (by omega), List.nil_append]
      exact ihm (by omega)

theorem runF_repRange_head (fuel : Nat) (q : Char → Bool) (lo hi : Nat)
    (xs tail : List Char) (p : Option Char)
    (hall : ∀ c ∈ xs, q c = true)
    (htail : ∀ c, tail.head? = some c → q c = false)
    (hlo : lo ≤ xs.length) (hhi : xs.length ≤ hi) :
    ∃ junk, runF fuel (repRange (.cls q) lo hi) p (xs ++ tail)
      = (xs.foldl (fun _ c => some c) p, tail) :: junk := by
  rw [repRange]
  exact runF_repRangeAux_head fuel q lo (hi - lo) xs tail p hall htail hlo (by omega)

/-- The threaded previous-character after consuming a nonempty list is
one of its characters. -/
theorem foldl_some_mem (xs : List Char) (p : Option Char) (hne : xs ≠ []) :
    ∃ c ∈ xs, xs.foldl (fun _ c => some c) p = some c := by
  induction xs generalizing p with
  | nil => exact absurd rfl hne
  | cons x xs ih =>
    cases xs with
    | nil => exact ⟨x, List.mem_cons_self x [], rfl⟩
    | cons y ys =>
      obtain ⟨c, hc, hfold⟩ := ih (some x) (by simp)
      exact ⟨c, List.mem_cons_of_mem x hc, hfold⟩

theorem phoneRE3_match_head (fuel : Nat) (w : Char) (hw : isWordChar w = true)
    (cc ds suf : List Char)
    (hcc_ne : cc ≠ []) (hcc_len : cc.length ≤ 3) (hcc_dig : ∀ c ∈ cc, c.isDigit = true)
    (hds_ne : ds ≠ []) (hds_len : ds.length ≤ 14) (hds_dig : ∀ c ∈ ds, c.isDigit = true)
    (hsuf : ∀ c, suf.head? = some c → isWordChar c = false) :
    (runF fuel phoneRE3 (some w) ('+' :: (cc ++ (' ' :: (ds ++ suf))))).head?
      = some (ds.foldl (fun _ c => some c) (some ' '), suf) := by
  -- the word-boundary before `+` holds because `w` is a word character
  have hb : boundaryB (some w) ('+' :: (cc ++ (' ' :: (ds ++ suf)))) = true := by
    simp [boundaryB, wordB, hw, show isWordChar '+' = false from by decide]
  -- the digit run after `+` is exactly `cc`
  obtain ⟨junk1, hj1⟩ := runF_repRange_head fuel Char.isDigit 1 3 cc
    (' ' :: (ds ++ suf)) (some '+') hcc_dig
    (by intro c hc; rw [List.head?_cons] at hc; rw [← Option.some.inj hc]; decide)
    (List.length_pos.mpr hcc_ne) hcc_len
  -- the digit run after the optional space is exactly `ds`
  obtain ⟨junk3, hj3⟩ := runF_repRange_head fuel Char.isDigit 1 14 ds suf (some ' ')
    hds_dig
    (by
      intro c hc
      rcases hdig : c.isDigit with - | -
      · rfl
      · exact absurd (isWordChar_of_isDigit c hdig) (by simp [hsuf c hc]))
    (List.length_pos.mpr hds_ne) hds_len
  -- the trailing word boundary holds: last consumed char is a digit
  obtain ⟨cl, hcl, hfold⟩ := foldl_some_mem ds (some ' ') hds_ne
  have hb2 : boundaryB (ds.foldl (fun _ c => some c) (some ' ')) suf = true := by
    rw [hfold]
    have hwcl : isWordChar cl = true := isWordChar_of_isDigit cl (hds_dig cl hcl)
    cases suf with
    | nil => simp [boundaryB, wordB, hwcl]
    | cons c t' => simp [boundaryB, wordB, hwcl, hsuf c rfl]
  show (runF fuel (.seq .wb _) (some w) _).head? = _
  rw [runF_seq, runF_wb, if_pos hb]
  simp only [List.flatMap_cons, List.flatMap_nil, List.append_nil]
  rw [runF_seq]
  simp only [lit]
  rw [runF_cls]
  dsimp only
  rw [if_pos (by simp)]
  simp only [List.flatMap_cons, List.flatMap_nil, List.append_nil]
  rw [runF_seq]
  simp only [digitC]
  rw [hj1]
  simp only [List.flatMap_cons]
  rw [runF_seq]
  simp only [ropt]
  rw [runF_alt, runF_eps, runF_cls]
  dsimp only
  rw [if_pos (by decide)]
  simp only [List.cons_append, List.nil_append, List.flatMap_cons]
  rw [runF_seq]
  rw [hj3]
  simp only [List.flatMap_cons]
  rw [runF_wb, if_pos hb2]
  simp only [List.cons_append, List.singleton_append, List.head?_cons]


/-! Shape of the engine's results, as consumed-prefix decompositions. -/

theorem mem_runF_seq (fuel : Nat) (a b : RE) (p : Option Char) (r : List Char)
    (s : RState) (h : s ∈ runF fuel (.seq a b) p r) :
    ∃ s', s' ∈ runF fuel a p r ∧ s ∈ runF fuel b s'.1 s'.2 := by
  rw [runF_seq] at h
  exact List.mem_flatMap.mp h

theorem mem_runF_wb (fuel : Nat) (p : Option Char) (r : List Char)
    (s : RState) (h : s ∈ runF fuel .wb p r) : s = (p, r) := by
  rw [runF_wb] at h
  split at h
  · simpa using h
  · simp at h

theorem mem_runF_lit (fuel : Nat) (c0 : Char) (p : Option Char) (r : List Char)
    (s : RState) (h : s ∈ runF fuel (lit c0) p r) :
    r = c0 :: s.2 ∧ s.1 = some c0 := by
  simp only [lit] at h
  rw [runF_cls] at h
  cases r with
  | nil => simp at h
  | cons c r' =>
    dsimp only at h
    split at h
    · rename_i hc
      simp only [List.mem_singleton] at h
      subst h
      simp_all
    · simp at h

theorem mem_runF_rrep_cls (fuel k : Nat) (q : Char → Bool) (p : Option Char)
    (r : List Char) (s : RState) (h : s ∈ runF fuel (rrep (.cls q) k) p r) :
    ∃ xs, r = xs ++ s.2 ∧ (∀ c ∈ xs, q c = true) ∧
      s.1 = xs.foldl (fun _ c => some c) p := by
  rw [runF_rrep_cls] at h
  split at h
  · rename_i hcond
    simp only [List.mem_singleton] at h
    subst h
    exact ⟨r.take k, (List.take_append_drop k r).symm,
      fun c hc => List.all_eq_true.mp hcond.2 c hc, rfl⟩
  · simp at h

theorem mem_runF_repRangeAux (fuel : Nat) (q : Char → Bool) (lo m : Nat)
    (p : Option Char) (r : List Char) (s : RState)
    (h : s ∈ runF fuel (repRangeAux (.cls q) lo m) p r) :
    ∃ xs, r = xs ++ s.2 ∧ (∀ c ∈ xs, q c = true) ∧
      s.1 = xs.foldl (fun _ c => some c) p := by
  induction m with
  | zero =>
    rw [repRangeAux] at h
    exact mem_runF_rrep_cls fuel lo q p r s h
  | succ m ih =>
    rw [repRangeAux, runF_alt] at h
    rcases List.mem_append.mp h with h | h
    · exact mem_runF_rrep_cls fuel _ q p r s h
    · exact ih h

theorem mem_runF_ropt_cls (fuel : Nat) (q : Char → Bool) (p : Option Char)
    (r : List Char) (s : RState) (h : s ∈ runF fuel (ropt (.cls q)) p r) :
    ∃ xs, r = xs ++ s.2 ∧ (∀ c ∈ xs, q c = true) ∧
      s.1 = xs.foldl (fun _ c => some c) p := by
  simp only [ropt] at h
  rw [runF_alt, runF_eps] at h
  rcases List.mem_append.mp h with h | h
  · rw [runF_cls] at h
    cases r with
    | nil => simp at h
    | cons c r' =>
      dsimp only at h
      split at h
      · rename_i hc
        simp only [List.mem_singleton] at h
        subst h
        exact ⟨[c], rfl, by simp [hc], rfl⟩
      · simp at h
  · simp only [List.mem_singleton] at h
    subst h
    exact ⟨[], rfl, by simp, rfl⟩

/-- Every `phoneRE3` engine result consumed a leading `+` followed only
by digits and whitespace, threading the previous character through the
consumed part.  In particular a match contains `+` only at its first
position. -/
theorem phoneRE3_shape (fuel : Nat) (p : Option Char) (r : List Char)
    (s : RState) (h : s ∈ runF fuel phoneRE3 p r) :
    ∃ mid, r = '+' :: (mid ++ s.2) ∧
      (∀ c ∈ mid, c.isDigit = true ∨ isPySpace c = true) ∧
      s.1 = mid.foldl (fun _ c => some c) (some '+') := by
  obtain ⟨s1, hs1, h⟩ := mem_runF_seq fuel _ _ p r s h
  have hs1e := mem_runF_wb fuel p r s1 hs1
  subst hs1e
  obtain ⟨s2, hs2, h⟩ := mem_runF_seq fuel _ _ p r s h
  obtain ⟨hr, hs2p⟩ := mem_runF_lit fuel '+' p r s2 hs2
  obtain ⟨s3, hs3, h⟩ := mem_runF_seq fuel _ _ s2.1 s2.2 s h
  rw [repRange] at hs3
  obtain ⟨x1, hx1, hq1, hp1⟩ := mem_runF_repRangeAux fuel _ _ _ s2.1 s2.2 s3 hs3
  obtain ⟨s4, hs4, h⟩ := mem_runF_seq fuel _ _ s3.1 s3.2 s h
  obtain ⟨x2, hx2, hq2, hp2⟩ := mem_runF_ropt_cls fuel _ s3.1 s3.2 s4 hs4
  obtain ⟨s5, hs5, h⟩ := mem_runF_seq fuel _ _ s4.1 s4.2 s h
  rw [repRange] at hs5
  obtain ⟨x3, hx3, hq3, hp3⟩ := mem_runF_repRangeAux fuel _ _ _ s4.1 s4.2 s5 hs5
  have hse := mem_runF_wb fuel s5.1 s5.2 s h
  subst hse
  refine ⟨x1 ++ x2 ++ x3, ?_, ?_, ?_⟩
  · rw [hr, hs2p] at *
    rw [hx1, hx2, hx3]
    simp [List.append_assoc]
  · intro c hc
    rcases List.mem_append.mp hc with hc | hc
    · rcases List.mem_append.mp hc with hc | hc
      · exact Or.inl (hq1 c hc)
      · exact Or.inr (hq2 c hc)
    · exact Or.inl (hq3 c hc)
  · rw [hp3, hp2, hp1, hs2p]
    simp [List.foldl_append]

/-- The scanner's output does not depend on the fuel once the fuel
exceeds the input length (each step consumes at least one character). -/
theorem scanF_fuel (re : RE) :
    ∀ (n f1 f2 : Nat) (p : Option Char) (r : List Char), r.length ≤ n →
      r.length < f1 → r.length < f2 → scanF f1 re p r = scanF f2 re p r := by
  intro n
  induction n with
  | zero =>
    intro f1 f2 p r hn h1 h2
    have hr : r = [] := List.length_eq_zero.mp (by omega)
    subst hr
    rcases f1 with - | f1
    · omega
    rcases f2 with - | f2
    · omega
    simp only [scanF]
    rcases (runM re p []).head? with - | s
    · rfl
    · simp
  | succ n ih =>
    intro f1 f2 p r hn h1 h2
    rcases f1 with - | f1
    · omega
    rcases f2 with - | f2
    · omega
    simp only [scanF]
    rcases hh : (runM re p r).head? with - | s
    · cases r with
      | nil => rfl
      | cons c r' =>
        exact ih f1 f2 (some c) r' (by simp at hn ⊢; omega)
          (by simp at h1 ⊢; omega) (by simp at h2 ⊢; omega)
    · dsimp only
      by_cases hl : s.2.length < r.length
      · rw [if_pos hl, if_pos hl]
        rw [ih f1 f2 s.1 s.2 (by omega) (by omega) (by omega)]
      · rw [if_neg hl, if_neg hl]
        cases r with
        | nil => rfl
        | cons c r' =>
          exact ih f1 f2 (some c) r' (by simp at hn ⊢; omega)
            (by simp at h1 ⊢; omega) (by simp at h2 ⊢; omega)

/-- Reaching a `+` through an arbitrary prefix: whatever matches occur
inside the prefix, none of them can overlap the `+` (a `phoneRE3` match
contains `+` only at its first position), so any string the scan finds
from the `+` onward — with the last prefix character as boundary
context — is found when scanning the whole text. -/
theorem scanF_reach :
    ∀ (n : Nat) (u : List Char) (p : Option Char) (rest x : List Char),
      u.length ≤ n → rest.head? = some '+' →
      x ∈ scanF (rest.length + 1) phoneRE3 (u.foldl (fun _ c => some c) p) rest →
      x ∈ scanF (u.length + rest.length + 1) phoneRE3 p (u ++ rest) := by
  intro n
  induction n with
  | zero =>
    intro u p rest x hn hplus hx
    have hu : u = [] := List.length_eq_zero.mp (by omega)
    subst hu
    simpa using hx
  | succ n ih =>
    intro u p rest x hn hplus hx
    cases u with
    | nil => simpa using hx
    | cons c u' =>
      have harith : (c :: u').length + rest.length + 1
          = (u'.length + rest.length + 1) + 1 := by
        simp
        omega
      rw [harith]
      simp only [List.cons_append]
      simp only [scanF]
      rcases hh : (runM phoneRE3 p (c :: (u' ++ rest))).head? with - | s
      · exact ih u' (some c) rest x (by simp at hn; omega) hplus hx
      · have hmem : s ∈ runM phoneRE3 p (c :: (u' ++ rest)) :=
          List.mem_of_mem_head? (by simp [hh])
        obtain ⟨mid, hdec, hmid, hprev⟩ := phoneRE3_shape _ p _ s hmem
        have hc : c = '+' := by
          have := congrArg List.head? hdec
          simpa using this
        have hsplit : mid ++ s.2 = u' ++ rest := by
          have := hdec
          rw [hc] at this
          exact ((List.cons.injEq _ _ _ _ ▸ this).2).symm
        -- the match cannot reach past the later '+', so it stays in u'
        have hcase : ∃ u'', u' = mid ++ u'' ∧ s.2 = u'' ++ rest := by
          rcases List.append_eq_append_iff.mp hsplit with ⟨t, ht1, ht2⟩ | ⟨t, ht1, ht2⟩
          · exact ⟨t, ht1.symm ▸ rfl, ht2⟩
          · cases t with
            | nil =>
              simp at ht1 ht2
              exact ⟨[], by simp [ht1], by simp [ht2]⟩
            | cons d t' =>
              exfalso
              have hd : d = '+' := by
                have h2 := congrArg List.head? ht2
                rw [hplus] at h2
                simpa using h2.symm
              have hdm : d ∈ mid := by
                rw [ht1]
                exact List.mem_append.mpr (Or.inr (List.mem_cons_self d t'))
              rcases hmid d hdm with hdig | hsp
              · rw [hd] at hdig
                exact absurd hdig (by decide)
              · rw [hd] at hsp
                exact absurd hsp (by decide)
        obtain ⟨u'', hu', hs2⟩ := hcase
        have hlt : s.2.length < (c :: (u' ++ rest)).length := by
          have := congrArg List.length hdec
          simp at this ⊢
          omega
        dsimp only
        rw [if_pos hlt]
        refine List.mem_cons_of_mem _ ?_
        have hlen'' : u''.length ≤ n := by
          have := congrArg List.length hu'
          simp at this hn
          omega
        have hprev2 : u''.foldl (fun _ c => some c) s.1
            = (c :: u').foldl (fun _ c => some c) p := by
          rw [hprev, hc, hu']
          simp [List.foldl_append]
        have hx2 : x ∈ scanF (u''.length + rest.length + 1) phoneRE3 s.1 (u'' ++ rest) :=
          ih u'' s.1 rest x hlen'' hplus (by rw [hprev2]; exact hx)
        rw [hs2]
        show x ∈ scanF (u'.length + rest.length + 1) phoneRE3 s.1 (u'' ++ rest)
        have hfuel : scanF (u'.length + rest.length + 1) phoneRE3 s.1 (u'' ++ rest)
            = scanF (u''.length + rest.length + 1) phoneRE3 s.1 (u'' ++ rest) := by
          apply scanF_fuel phoneRE3 (u''.length + rest.length)
          · simp
          · have := congrArg List.length hu'
            simp at this
            simp
            omega
          · simp
        rw [hfuel]
        exact hx2

/-- A digit is not Python whitespace. -/
theorem isPySpace_of_isDigit (c : Char) (h : c.isDigit = true) : isPySpace c = false := by
  rcases hsp : isPySpace c with - | -
  · rfl
  · exfalso
    simp only [isPySpace, Bool.or_eq_true, decide_eq_true_eq] at hsp
    rcases hsp with ((((h1 | h1) | h1) | h1) | h1) | h1 <;> rw [h1] at h <;>
      exact absurd h (by decide)

/-- A repetition of at least one character of a class fails on a text
whose head is outside the class. -/
theorem rrep_cls_nil (fuel k : Nat) (q : Char → Bool) (p : Option Char) (r : List Char)
    (hk : 1 ≤ k) (hr : ∀ c, r.head? = some c → q c = false) :
    runF fuel (rrep (.cls q) k) p r = [] := by
  rw [runF_rrep_cls, if_neg]
  rintro ⟨h1, h2⟩
  cases r with
  | nil =>
    simp at h1
    omega
  | cons c r' =>
    rcases k with - | j
    · omega
    · simp only [List.take_succ_cons, List.all_cons, Bool.and_eq_true] at h2
      have hc := hr c rfl
      rw [hc] at h2
      exact absurd h2.1 (by simp)

theorem repRangeAux_cls_nil (fuel : Nat) (q : Char → Bool) (m : Nat) (p : Option Char)
    (r : List Char) (hr : ∀ c, r.head? = some c → q c = false) :
    runF fuel (repRangeAux (.cls q) 1 m) p r = [] := by
  induction m with
  | zero =>
    rw [repRangeAux]
    exact rrep_cls_nil fuel 1 q p r (by omega) hr
  | succ k ih =>
    rw [repRangeAux, runF_alt, ih, rrep_cls_nil fuel (1 + (k + 1)) q p r (by omega) hr]
    rfl

theorem repRange_cls_nil (fuel : Nat) (q : Char → Bool) (hi : Nat) (p : Option Char)
    (r : List Char) (hr : ∀ c, r.head? = some c → q c = false) :
    runF fuel (repRange (.cls q) 1 hi) p r = [] := by
  rw [repRange]
  exact repRangeAux_cls_nil fuel q (hi - 1) p r hr

/-- The tail `\d{1,14}\b` of `phoneRE3` fails when the next character
is not a digit. -/
theorem runF_tail14_nil (fuel : Nat) (p : Option Char) (r : List Char)
    (hr : ∀ c, r.head? = some c → c.isDigit = false) :
    runF fuel (.seq (repRange digitC 1 14) .wb) p r = [] := by
  rw [runF_seq]
  simp only [digitC]
  rw [repRange_cls_nil fuel Char.isDigit 14 p r hr]
  rfl

/-- The continuation `\s?\d{1,14}\b` of `phoneRE3` fails on a suffix
whose head is not a digit and which does not start with whitespace
followed by a digit. -/
theorem runF_contK_nil (fuel : Nat) (p : Option Char) (suf : List Char)
    (hnd : ∀ c, suf.head? = some c → c.isDigit = false)
    (hsufd : ∀ c s2, suf = c :: s2 → isPySpace c = true →
      ∀ d, s2.head? = some d → d.isDigit = false) :
    runF fuel (.seq (ropt (.cls isPySpace))
      (.seq (repRange digitC 1 14) .wb)) p suf = [] := by
  rw [runF_seq]
  simp only [ropt]
  rw [runF_alt, runF_eps, runF_cls]
  cases suf with
  | nil =>
    dsimp only
    simp only [List.nil_append, List.flatMap_cons, List.flatMap_nil, List.append_nil]
    exact runF_tail14_nil fuel p [] (by intro c hc; simp at hc)
  | cons c s2 =>
    dsimp only
    rcases hsp : isPySpace c with - | -
    · rw [if_neg (by simp [hsp])]
      simp only [List.nil_append, List.flatMap_cons, List.flatMap_nil, List.append_nil]
      exact runF_tail14_nil fuel p (c :: s2) hnd
    · rw [if_pos rfl]
      simp only [List.cons_append, List.nil_append, List.flatMap_cons, List.flatMap_nil,
        List.append_nil]
      rw [runF_tail14_nil fuel (some c) s2 (fun d hd => hsufd c s2 rfl hsp d hd),
        runF_tail14_nil fuel p (c :: s2) hnd]
      rfl

/-- The continuation `\s?\d{1,14}\b` of `phoneRE3` on a digit run `xs`
followed by a non-word suffix: the greedy head consumes exactly `xs`
(the optional whitespace is skipped since the head of `xs` is a
digit). -/
theorem runF_contK_head (fuel : Nat) (p : Option Char) (xs suf : List Char)
    (hne : xs ≠ []) (hlen : xs.length ≤ 14) (hdig : ∀ c ∈ xs, c.isDigit = true)
    (hsuf : ∀ c, suf.head? = some c → isWordChar c = false) :
    ∃ junk, runF fuel (.seq (ropt (.cls isPySpace))
        (.seq (repRange digitC 1 14) .wb)) p (xs ++ suf)
      = (xs.foldl (fun _ c => some c) p, suf) :: junk := by
  have hnd : ∀ c, suf.head? = some c → c.isDigit = false := by
    intro c hc
    rcases hdg : c.isDigit with - | -
    · rfl
    · exact absurd (isWordChar_of_isDigit c hdg) (by simp [hsuf c hc])
  obtain ⟨junk, hj⟩ := runF_repRange_head fuel Char.isDigit 1 14 xs suf p hdig hnd
    (List.length_pos.mpr hne) hlen
  obtain ⟨cl, hcl, hfold⟩ := foldl_some_mem xs p hne
  have hb2 : boundaryB (xs.foldl (fun _ c => some c) p) suf = true := by
    rw [hfold]
    have hwcl : isWordChar cl = true := isWordChar_of_isDigit cl (hdig cl hcl)
    cases suf with
    | nil => simp [boundaryB, wordB, hwcl]
    | cons c t' => simp [boundaryB, wordB, hwcl, hsuf c rfl]
  cases xs with
  | nil => exact absurd rfl hne
  | cons x xs' =>
    rw [runF_seq]
    simp only [ropt]
    rw [runF_alt, runF_eps, runF_cls]
    simp only [List.cons_append]
    rw [if_neg (by simp [isPySpace_of_isDigit x (hdig x (List.mem_cons_self x xs'))])]
    simp only [List.nil_append, List.flatMap_cons, List.flatMap_nil, List.append_nil]
    rw [runF_seq]
    simp only [digitC]
    rw [show (x :: (xs' ++ suf)) = (x :: xs') ++ suf from rfl, hj]
    simp only [List.flatMap_cons]
    rw [runF_wb, if_pos hb2]
    exact ⟨_, rfl⟩

/-- `\d{1,3}` unfolded: greedy alternation of three, two, one
repetitions. -/
theorem repRange13 : repRange digitC 1 3
    = .alt (rrep digitC 3) (.alt (rrep digitC 2) (rrep digitC 1)) := rfl

/-- Head of the `phoneRE3` result list on a contiguous digit token:
after a word character, `+` followed by a contiguous run `D` of 2–17
digits and a suffix that neither starts with a word character nor with
whitespace-then-digit matches, consuming exactly `+` and `D`. -/
theorem phoneRE3_match_head_contig (fuel : Nat) (w : Char) (hw : isWordChar w = true)
    (D suf : List Char)
    (hD2 : 2 ≤ D.length) (hD17 : D.length ≤ 17)
    (hD_dig : ∀ c ∈ D, c.isDigit = true)
    (hsuf : ∀ c, suf.head? = some c → isWordChar c = false)
    (hsufd : ∀ c s2, suf = c :: s2 → isPySpace c = true →
      ∀ d, s2.head? = some d → d.isDigit = false) :
    ∃ pe, (runF fuel phoneRE3 (some w) ('+' :: (D ++ suf))).head? = some (pe, suf) := by
  have hnd : ∀ c, suf.head? = some c → c.isDigit = false := by
    intro c hc
    rcases hdg : c.isDigit with - | -
    · rfl
    · exact absurd (isWordChar_of_isDigit c hdg) (by simp [hsuf c hc])
  have hb : boundaryB (some w) ('+' :: (D ++ suf)) = true := by
    simp [boundaryB, wordB, hw, show isWordChar '+' = false from by decide]
  suffices hcore : ∃ pe, (runF fuel (.seq (repRange digitC 1 3)
      (.seq (ropt (.cls isPySpace)) (.seq (repRange digitC 1 14) .wb)))
      (some '+') (D ++ suf)).head? = some (pe, suf) by
    obtain ⟨pe, hpe⟩ := hcore
    refine ⟨pe, ?_⟩
    show (runF fuel (.seq .wb _) (some w) _).head? = _
    rw [runF_seq, runF_wb, if_pos hb]
    simp only [List.flatMap_cons, List.flatMap_nil, List.append_nil]
    rw [runF_seq]
    simp only [lit]
    rw [runF_cls]
    dsimp only
    rw [if_pos (by simp)]
    simp only [List.flatMap_cons, List.flatMap_nil, List.append_nil]
    exact hpe
  obtain ⟨d1, D1, rfl⟩ : ∃ d1 D1, D = d1 :: D1 := by
    cases D with
    | nil => simp at hD2
    | cons a b => exact ⟨a, b, rfl⟩
  obtain ⟨d2, D2, rfl⟩ : ∃ d2 D2, D1 = d2 :: D2 := by
    cases D1 with
    | nil => simp at hD2
    | cons a b => exact ⟨a, b, rfl⟩
  have hdig1 : d1.isDigit = true := hD_dig d1 (by simp)
  have hdig2 : d2.isDigit = true := hD_dig d2 (by simp)
  cases D2 with
  | nil =>
    -- D = [d1, d2]: the three-digit branch fails, the two-digit branch
    -- succeeds but its continuation fails on the suffix, the one-digit
    -- branch succeeds with `d2` consumed by the second repetition.
    have h3 : runF fuel (rrep digitC 3) (some '+') ([d1, d2] ++ suf) = [] := by
      simp only [digitC]
      rw [runF_rrep_cls, if_neg]
      rintro ⟨h1, h2⟩
      cases suf with
      | nil => simp at h1
      | cons s0 s2 =>
        rw [show (([d1, d2] : List Char) ++ (s0 :: s2)).take 3 = [d1, d2, s0] from rfl] at h2
        simp [hnd s0 rfl] at h2
    have h2r : runF fuel (rrep digitC 2) (some '+') ([d1, d2] ++ suf)
        = [(some d2, suf)] := by
      simp only [digitC]
      rw [runF_rrep_cls, if_pos]
      · rw [show (([d1, d2] : List Char) ++ suf).take 2 = [d1, d2] from
          by simp,
          show (([d1, d2] : List Char) ++ suf).drop 2 = suf from
          by simp]
        rfl
      · constructor
        · simp only [List.length_append, List.length_cons, List.length_nil]
          omega
        · rw [show (([d1, d2] : List Char) ++ suf).take 2 = [d1, d2] from
            by simp]
          simp [hdig1, hdig2]
    have h1r : runF fuel (rrep digitC 1) (some '+') ([d1, d2] ++ suf)
        = [(some d1, d2 :: suf)] := by
      simp only [digitC]
      rw [runF_rrep_cls, if_pos]
      · rfl
      · exact ⟨by simp, by
          rw [show (([d1, d2] : List Char) ++ suf).take 1 = [d1] from rfl]
          simp [hdig1]⟩
    refine ⟨some d2, ?_⟩
    rw [runF_seq, repRange13, runF_alt, runF_alt, h3, h2r, h1r]
    simp only [List.nil_append, List.append_nil, List.flatMap_append, List.flatMap_cons,
      List.flatMap_nil]
    rw [runF_contK_nil fuel (some d2) suf hnd hsufd]
    obtain ⟨junk, hj⟩ := runF_contK_head fuel (some d1) [d2] suf (by simp) (by simp)
      (by intro c hc; simp at hc; rw [hc]; exact hdig2) hsuf
    rw [show ((d2 :: suf) : List Char) = [d2] ++ suf from rfl, hj]
    simp
  | cons d3 D3 =>
    have hdig3 : d3.isDigit = true := hD_dig d3 (by simp)
    cases D3 with
    | nil =>
      -- D = [d1, d2, d3]: the three-digit branch succeeds but its
      -- continuation fails; the two-digit branch succeeds with `d3`
      -- consumed by the second repetition.
      have h3r : runF fuel (rrep digitC 3) (some '+') ([d1, d2, d3] ++ suf)
          = [(some d3, suf)] := by
        simp only [digitC]
        rw [runF_rrep_cls, if_pos]
        · rw [show (([d1, d2, d3] : List Char) ++ suf).take 3 = [d1, d2, d3] from
            by simp,
            show (([d1, d2, d3] : List Char) ++ suf).drop 3 = suf from
            by simp]
          rfl
        · constructor
          · simp only [List.length_append, List.length_cons, List.length_nil]
            omega
          · rw [show (([d1, d2, d3] : List Char) ++ suf).take 3 = [d1, d2, d3] from
              by simp]
            simp [hdig1, hdig2, hdig3]
      have h2r : runF fuel (rrep digitC 2) (some '+') ([d1, d2, d3] ++ suf)
          = [(some d2, d3 :: suf)] := by
        simp only [digitC]
        rw [runF_rrep_cls, if_pos]
        · rfl
        · exact ⟨by simp, by
            rw [show (([d1, d2, d3] : List Char) ++ suf).take 2 = [d1, d2] from rfl]
            simp [hdig1, hdig2]⟩
      refine ⟨some d3, ?_⟩
      rw [runF_seq, repRange13, runF_alt, runF_alt, h3r, h2r]
      simp only [List.flatMap_append, List.flatMap_cons, List.flatMap_nil, List.append_nil]
      rw [runF_contK_nil fuel (some d3) suf hnd hsufd]
      obtain ⟨junk, hj⟩ := runF_contK_head fuel (some d2) [d3] suf (by simp) (by simp)
        (by intro c hc; simp at hc; rw [hc]; exact hdig3) hsuf
      rw [show ((d3 :: suf) : List Char) = [d3] ++ suf from rfl, hj]
      simp
    | cons d4 D4 =>
      -- D has at least four digits: the three-digit branch succeeds and
      -- its continuation greedily consumes the remaining digits.
      have h3r : runF fuel (rrep digitC 3) (some '+')
          ((d1 :: d2 :: d3 :: d4 :: D4) ++ suf)
          = [(some d3, (d4 :: D4) ++ suf)] := by
        simp only [digitC]
        rw [runF_rrep_cls, if_pos]
        · rfl
        · constructor
          · simp only [List.length_append, List.length_cons]
            omega
          · rw [show ((d1 :: d2 :: d3 :: d4 :: D4) ++ suf).take 3 = [d1, d2, d3] from rfl]
            simp [hdig1, hdig2, hdig3]
      refine ⟨(d4 :: D4).foldl (fun _ c => some c) (some d3), ?_⟩
      rw [runF_seq, repRange13, runF_alt, runF_alt, h3r]
      simp only [List.flatMap_append, List.flatMap_cons, List.flatMap_nil, List.append_nil]
      obtain ⟨junk, hj⟩ := runF_contK_head fuel (some d3) (d4 :: D4) suf (by simp)
        (by simp only [List.length_cons] at hD17 ⊢; omega)
        (fun c hc => hD_dig c (List.mem_cons_of_mem d1 (List.mem_cons_of_mem d2
          (List.mem_cons_of_mem d3 hc))))
        hsuf
      rw [hj]
      simp

/-- Generic emission: if the scanner's first match at the `+` consumes
exactly `tok`, then `tok` is extracted from any text placing `tok`
after an arbitrary prefix `p0` and a character `w`. -/
theorem extract_phones_emit (p0 : List Char) (w : Char) (tok suf : List Char)
    (htok : tok.head? = some '+')
    (hhd : ∃ pe, (runM phoneRE3 (some w) (tok ++ suf)).head? = some (pe, suf)) :
    tok ∈ extract_phones (p0 ++ w :: (tok ++ suf)) := by
  obtain ⟨pe, hpe⟩ := hhd
  have htok_ne : tok ≠ [] := by
    intro h
    rw [h] at htok
    simp at htok
  have hplus : (tok ++ suf).head? = some '+' := by
    cases tok with
    | nil => exact absurd rfl htok_ne
    | cons a t =>
      simp only [List.cons_append, List.head?_cons] at htok ⊢
      exact htok
  have hlt : suf.length < (tok ++ suf).length := by
    simp only [List.length_append]
    have := List.length_pos.mpr htok_ne
    omega
  have hemit : tok ∈ scanF ((tok ++ suf).length + 1) phoneRE3 (some w) (tok ++ suf) := by
    simp only [scanF]
    rw [hpe]
    dsimp only
    rw [if_pos hlt]
    have htake : (tok ++ suf).take ((tok ++ suf).length - suf.length) = tok := by
      have hlen : (tok ++ suf).length - suf.length = tok.length := by
        simp only [List.length_append]
        omega
      rw [hlen, List.take_left]
    rw [htake]
    exact List.mem_cons_self _ _
  have hfold : (p0 ++ [w]).foldl (fun _ c => some c) (none : Option Char) = some w := by
    rw [List.foldl_append]
    rfl
  have hreach := scanF_reach (p0 ++ [w]).length (p0 ++ [w]) none (tok ++ suf) tok
    (le_refl _) hplus (by rw [hfold]; exact hemit)
  have hsplit : p0 ++ w :: (tok ++ suf) = (p0 ++ [w]) ++ (tok ++ suf) := by simp
  have hfind : tok ∈ pyFindall phoneRE3 (p0 ++ w :: (tok ++ suf)) := by
    unfold pyFindall
    rw [hsplit]
    have hfuel : ((p0 ++ [w]) ++ (tok ++ suf)).length + 1
        = (p0 ++ [w]).length + (tok ++ suf).length + 1 := by
      simp
      omega
    rw [hfuel]
    exact hreach
  exact List.mem_dedup.mpr (List.mem_append.mpr (Or.inr hfind))

/-! ## The claims -/

/-- C1 (amended): for every multi-page PDF whose pages yield per-page
confidence values (each the mean of that page's positive per-word
scores), `process_pdf` returns as `confidence` the arithmetic mean of
the per-page means **rounded to two decimals** (`round(x, 2)` in the
source), not a mean recomputed over the words of the combined text.  A
2-page PDF with page confidences 80 and 60 yields 70; a PDF whose pages
have word scores [80,80,80] and [60] also yields 70, while a recompute
over the combined words would give 75. -/
theorem C1_pdf_confidence_amended (pages : List PageOCR)
    (fb : Except (List Char) (List PageOCR)) (h : pages ≠ []) :
    (process_pdf true true (.ok pages) fb).map PdfResult.confidence
      = .ok (round2 ((pages.map fun p => confFromPass p.confPass).sum / (pages.length : ℚ))) ∧
    (process_pdf true true (.ok [⟨"P1".data, .ok [80]⟩, ⟨"P2".data, .ok [60]⟩]) fb).map
        PdfResult.confidence = .ok (70 : ℚ) ∧
    (process_pdf true true (.ok [⟨"P1".data, .ok [80, 80, 80]⟩, ⟨"P2".data, .ok [60]⟩]) fb).map
        PdfResult.confidence = .ok (70 : ℚ) ∧
    round2 (avgPositive [80, 80, 80, 60]) = 75 := by
  refine ⟨?_, ?_, ?_, ?_⟩
  · cases pages with
    | nil => exact absurd rfl h
    | cons p ps =>
      simp [process_pdf, effImages, Except.map]
  · simp [process_pdf, effImages, confFromPass, avgPositive, Except.map]
    norm_num [round2, halfEven]
  · simp [process_pdf, effImages, confFromPass, avgPositive, Except.map]
    norm_num [round2, halfEven]
  · norm_num [avgPositive, round2, halfEven]

/-- C1 witness: the amended claim at a concrete 2-page input. -/
theorem C1_pdf_confidence_witness :
    (process_pdf true true (.ok [⟨"P1".data, .ok [80]⟩, ⟨"P2".data, .ok [60]⟩])
        (.error [])).map PdfResult.confidence
      = .ok (round2 ((([(⟨"P1".data, .ok [80]⟩ : PageOCR), ⟨"P2".data, .ok [60]⟩]).map
          fun p => confFromPass p.confPass).sum / 2)) ∧
    (process_pdf true true (.ok [⟨"P1".data, .ok [80]⟩, ⟨"P2".data, .ok [60]⟩])
        (.error [])).map PdfResult.confidence = .ok (70 : ℚ) :=
  ⟨(C1_pdf_confidence_amended [⟨"P1".data, .ok [80]⟩, ⟨"P2".data, .ok [60]⟩]
      (.error []) (by simp)).1,
   (C1_pdf_confidence_amended [⟨"P1".data, .ok [80]⟩, ⟨"P2".data, .ok [60]⟩]
      (.error []) (by simp)).2.1⟩

/-- C1 counterexample: the claim as stated (confidence exactly equals
the unrounded mean of per-page means) fails: three pages with word
scores [1], [1], [2] have per-page means 1, 1, 2, whose mean is 4/3,
but `process_pdf` returns `round(4/3, 2) = 1.33 ≠ 4/3`. -/
theorem C1_pdf_confidence_cex :
    (process_pdf true true
      (.ok [⟨"a".data, .ok [1]⟩, ⟨"b".data, .ok [1]⟩, ⟨"c".data, .ok [2]⟩])
      (.error [])).map PdfResult.confidence = .ok (133/100 : ℚ) ∧
    ((avgPositive [1] + avgPositive [1] + avgPositive [2]) / 3 : ℚ) = 4/3 ∧
    (133/100 : ℚ) ≠ 4/3 := by
  refine ⟨?_, ?_, by norm_num⟩
  · simp [process_pdf, effImages, confFromPass, avgPositive, Except.map]
    norm_num [round2, halfEven]
  · norm_num [avgPositive]

/-- C2 (amended): for every PDF rasterizing to pages `P1..Pn` (n ≥ 1)
**none of whose page texts itself contains an occurrence of the
separator pattern**, the text returned by `process_pdf` is the page
texts joined in page order with a blank line between pages, each
prefixed by its 1-based separator line `--- Page N ---`; the result
contains exactly `n` separator occurrences with numbers `1..n` in
ascending positional order, and `page_count = n`. -/
theorem C2_page_separators_amended (pages : List PageOCR)
    (fb : Except (List Char) (List PageOCR))
    (hne : pages ≠ []) (hclean : ∀ p ∈ pages, sepNums p.text = []) :
    ∃ r, process_pdf true true (.ok pages) fb = .ok r ∧
      r.text = List.intercalate ['\n', '\n']
        (pages.enum.map fun ip => pageChunk ip.1 ip.2.text) ∧
      sepNums r.text = List.range' 1 pages.length ∧
      r.page_count = pages.length := by
  cases pages with
  | nil => exact absurd rfl hne
  | cons p ps =>
    refine ⟨_, rfl, rfl, ?_, rfl⟩
    rw [sepNums_intercalate, List.map_map]
    exact flatten_enumFrom_chunks (p :: ps) 0 hclean

/-- C2 witness: the amended claim at a concrete 2-page input. -/
theorem C2_page_separators_witness :
    ∃ r, process_pdf true true
        (.ok [⟨"hello".data, .ok []⟩, ⟨"world".data, .ok []⟩]) (.error []) = .ok r ∧
      r.text = List.intercalate ['\n', '\n']
        (([(⟨"hello".data, .ok []⟩ : PageOCR), ⟨"world".data, .ok []⟩]).enum.map
          fun ip => pageChunk ip.1 ip.2.text) ∧
      sepNums r.text = List.range' 1 2 ∧
      r.page_count = 2 :=
  C2_page_separators_amended [⟨"hello".data, .ok []⟩, ⟨"world".data, .ok []⟩] (.error [])
    (by simp) (by decide)

set_option maxRecDepth 10000 in
/-- C2 counterexample: the claim as stated fails when a page's own OCR
text contains the separator pattern: a 1-page PDF whose page text is
`--- Page 1 ---` produces a combined text with two separator
occurrences although `page_count = 1`. -/
theorem C2_page_separators_cex :
    (process_pdf true true (.ok [⟨"--- Page 1 ---".data, .ok []⟩]) (.error [])).map
      (fun r => (sepNums r.text, r.page_count)) = .ok ([1, 1], 1) := by
  simp only [process_pdf, effImages, Except.map]
  norm_num
  decide

/-- C3 (amended): for every single image whose recognition succeeds and
whose per-word scores lie in [0, 100], `process_image` returns as
`confidence` the mean of the strictly positive per-word scores (0 if
none) **rounded to two decimals** — still in [0, 100] — and returns
`word_count` equal to the number of whitespace-delimited tokens of the
returned text and `char_count` equal to its length in characters. -/
theorem C3_image_confidence_amended (text : List Char) (data : List Int)
    (h : ∀ c ∈ data, 0 ≤ c ∧ c ≤ 100) :
    process_image true (.ok text) (.ok data) = .ok
      { text := text
        confidence := round2 (avgPositive data)
        word_count := (pySplit text).length
        char_count := text.length } ∧
    0 ≤ round2 (avgPositive data) ∧ round2 (avgPositive data) ≤ 100 :=
  ⟨rfl, round2_nonneg _ (avgPositive_nonneg data),
    round2_le_100 _ (avgPositive_le_100 data fun c hc => (h c hc).2)⟩

/-- C3 witness: the amended claim at a concrete input. -/
theorem C3_image_confidence_witness :
    process_image true (.ok "ab cd".data) (.ok [80, 90]) = .ok
      { text := "ab cd".data, confidence := round2 (avgPositive [80, 90]),
        word_count := (pySplit "ab cd".data).length, char_count := "ab cd".data.length } ∧
    0 ≤ round2 (avgPositive [80, 90]) ∧ round2 (avgPositive [80, 90]) ≤ 100 :=
  C3_image_confidence_amended "ab cd".data [80, 90] (by decide)

/-- C3 counterexample: the claim as stated (confidence exactly equals
the mean) fails: word scores [1, 1, 2] have mean 4/3, but
`process_image` returns `round(4/3, 2) = 1.33 ≠ 4/3`. -/
theorem C3_image_confidence_cex :
    (process_image true (.ok "ab cd".data) (.ok [1, 1, 2])).map ImageResult.confidence
      = .ok (133/100 : ℚ) ∧
    avgPositive [1, 1, 2] = 4/3 ∧ (133/100 : ℚ) ≠ 4/3 := by
  refine ⟨?_, ?_, by norm_num⟩
  · simp [process_image, confFromPass, avgPositive, Except.map]
    norm_num [round2, halfEven]
  · norm_num [avgPositive]

/-- C4: when the full-text pass succeeds but the detail-level
confidence pass raises, the operation still succeeds with confidence 0
(for `process_image`, and per page in `process_pdf` via
`confFromPass`); a confidence-pass failure never propagates as overall
failure. -/
theorem C4_confidence_best_effort (text e : List Char) (pages : List PageOCR)
    (fb : Except (List Char) (List PageOCR)) (h : pages ≠ []) :
    process_image true (.ok text) (.error e) = .ok
      { text := text, confidence := 0,
        word_count := (pySplit text).length, char_count := text.length } ∧
    confFromPass (.error e) = 0 ∧
    (∃ r, process_pdf true true (.ok pages) fb = .ok r) := by
  refine ⟨?_, rfl, ?_⟩
  · simp [process_image, confFromPass, round2_zero]
  · cases pages with
    | nil => exact absurd rfl h
    | cons p ps => exact ⟨_, rfl⟩

/-- C4 witness: the claim at a concrete input. -/
theorem C4_confidence_best_effort_witness :
    process_image true (.ok "hi there".data) (.error "boom".data) = .ok
      { text := "hi there".data, confidence := 0,
        word_count := (pySplit "hi there".data).length,
        char_count := "hi there".data.length } ∧
    confFromPass (.error "boom".data) = 0 ∧
    (∃ r, process_pdf true true (.ok [⟨"a".data, .error "boom".data⟩]) (.error [])
      = .ok r) :=
  C4_confidence_best_effort "hi there".data "boom".data
    [⟨"a".data, .error "boom".data⟩] (.error []) (by simp)

/-- C5: a PDF whose rasterization yields zero pages makes `process_pdf`
fail with the empty-document `ProcessingFailure`, and no returned
result ever has `page_count = 0`. -/
theorem C5_empty_pdf_fails (rp rf : Except (List Char) (List PageOCR)) (r : PdfResult) :
    (effImages rp rf = .ok [] →
      process_pdf true true rp rf =
        .error (.processingFailure "PDF processing failed: No pages found in PDF".data)) ∧
    (process_pdf true true rp rf = .ok r → 0 < r.page_count) := by
  constructor
  · intro h
    unfold process_pdf
    rw [h]
    rfl
  · intro hok
    rcases he : effImages rp rf with e | images
    · simp [process_pdf, he] at hok
    · cases hi : images.isEmpty
      · simp [process_pdf, he, hi] at hok
        have hlen : 0 < images.length := by
          have hne : images ≠ [] := by
            intro hnil
            rw [hnil] at hi
            simp at hi
          exact List.length_pos.mpr hne
        rw [← hok]
        exact hlen
      · simp [process_pdf, he, hi] at hok

/-- C5 witness: both parts of the claim at concrete inputs — a
zero-page rasterization fails with the empty-document message, and a
concrete successful result has positive `page_count`. -/
theorem C5_empty_pdf_fails_witness :
    process_pdf true true (.ok []) (.error []) =
        .error (.processingFailure "PDF processing failed: No pages found in PDF".data) ∧
    0 < ({ text := List.intercalate ['\n', '\n']
             (([(⟨"a".data, .ok [80]⟩ : PageOCR)]).enum.map fun ip => pageChunk ip.1 ip.2.text)
           confidence := round2 (if ([(⟨"a".data, .ok [80]⟩ : PageOCR)]).isEmpty = true then 0
             else ((([(⟨"a".data, .ok [80]⟩ : PageOCR)]).map fun p => confFromPass p.confPass).sum /
               (([(⟨"a".data, .ok [80]⟩ : PageOCR)]).length : ℚ)))
           word_count := (pySplit (List.intercalate ['\n', '\n']
             (([(⟨"a".data, .ok [80]⟩ : PageOCR)]).enum.map fun ip => pageChunk ip.1 ip.2.text))).length
           char_count := (List.intercalate ['\n', '\n']
             (([(⟨"a".data, .ok [80]⟩ : PageOCR)]).enum.map fun ip => pageChunk ip.1 ip.2.text)).length
           page_count := 1 } : PdfResult).page_count :=
  ⟨(C5_empty_pdf_fails (.ok []) (.error []) ⟨[], 0, 0, 0, 0⟩).1 rfl,
   (C5_empty_pdf_fails (.ok [⟨"a".data, .ok [80]⟩]) (.error []) _).2 rfl⟩

/-- C6 (code bug): the claim says the upload handler removes the saved
temp file on every failure path, but when the extension is `pdf` and
the PDF backend is unavailable, `upload_file` returns the error after
`file.save` without any cleanup: the temp file stays on disk
(`tempSaved = true`, `removeCalled = false`) and no history is saved. -/
theorem C6_pdf_unavailable_leak (procPdf : Except PErr PdfResult)
    (procImg : Except PErr ImageResult) (saveHistoryOk : Bool) :
    upload_file true "doc.pdf".data true false true procPdf procImg saveHistoryOk
      = ⟨500, false, false, true, false⟩ := rfl

set_option maxRecDepth 100000 in
/-- C7: `extract_all` on the specification's example text yields
exactly the stated entity sets. -/
theorem C7_extract_all_example :
    extract_all "Contact a@b.com or https://x.co on 2024-01-05 for $1,200.50".data =
      { emails := ["a@b.com".data], phones := [], dates := ["2024-01-05".data],
        amounts := ["$1,200.50".data], urls := ["https://x.co".data] } := by decide

set_option maxRecDepth 100000 in
/-- C8: `extract_all` is a total function returning exactly the five
entity kinds (the structure's five fields), each list duplicate-free;
determinism is immediate since it is a function.  Text containing the
same email twice yields a single entry. -/
theorem C8_extract_all_total_dedup (t : List Char) :
    (extract_all t).emails.Nodup ∧ (extract_all t).phones.Nodup ∧
    (extract_all t).dates.Nodup ∧ (extract_all t).amounts.Nodup ∧
    (extract_all t).urls.Nodup ∧
    extract_all "a@b.com a@b.com".data =
      { emails := ["a@b.com".data], phones := [], dates := [], amounts := [], urls := [] } :=
  ⟨List.nodup_dedup _, List.nodup_dedup _, List.nodup_dedup _, List.nodup_dedup _,
    List.nodup_dedup _, by decide⟩

/-- C9 (amended): the loose-international phone pattern
`\b\+\d{1,3}\s?\d{1,14}\b` matches a `+`-token only when the `+` is
immediately preceded by a word character (the leading `\b` requires a
word character before the non-word `+`); in that case `extract_phones`
includes the token, in both its spaced and its contiguous form.  For
any prefix `p0`, word character `w`, country code `cc` (1-3 digits)
and subscriber digits `ds` (1-14 digits): (1) spaced: with any suffix
not starting with a word character, the token `+cc ds` is extracted;
(2) contiguous: with any suffix not starting with a word character and
not starting with whitespace followed by a digit (such a suffix would
extend the match into the spaced form), the token `+ccds` is
extracted. -/
theorem C9_intl_phone_amended (p0 : List Char) (w : Char) (cc ds suf : List Char)
    (hw : isWordChar w = true)
    (hcc_ne : cc ≠ []) (hcc_len : cc.length ≤ 3) (hcc_dig : ∀ c ∈ cc, c.isDigit = true)
    (hds_ne : ds ≠ []) (hds_len : ds.length ≤ 14) (hds_dig : ∀ c ∈ ds, c.isDigit = true) :
    ((∀ c, suf.head? = some c → isWordChar c = false) →
      ('+' :: (cc ++ (' ' :: ds))) ∈
        extract_phones (p0 ++ w :: '+' :: (cc ++ (' ' :: (ds ++ suf))))) ∧
    ((∀ c, suf.head? = some c → isWordChar c = false) →
      (∀ c s2, suf = c :: s2 → isPySpace c = true →
        ∀ d, s2.head? = some d → d.isDigit = false) →
      ('+' :: (cc ++ ds)) ∈
        extract_phones (p0 ++ w :: '+' :: (cc ++ (ds ++ suf)))) := by
  constructor
  · intro hsuf
    have hassoc : ('+' :: (cc ++ (' ' :: ds))) ++ suf
        = '+' :: (cc ++ (' ' :: (ds ++ suf))) := by simp
    have hmem := extract_phones_emit p0 w ('+' :: (cc ++ (' ' :: ds))) suf (by simp)
      ⟨ds.foldl (fun _ c => some c) (some ' '), by
        rw [hassoc]
        exact phoneRE3_match_head _ w hw cc ds suf hcc_ne hcc_len hcc_dig
          hds_ne hds_len hds_dig hsuf⟩
    rw [hassoc] at hmem
    exact hmem
  · intro hsuf hsufd
    have hassoc : ('+' :: (cc ++ ds)) ++ suf = '+' :: ((cc ++ ds) ++ suf) := by simp
    obtain ⟨pe, hpe⟩ := phoneRE3_match_head_contig
      (('+' :: ((cc ++ ds) ++ suf)).length + 1) w hw (cc ++ ds) suf
      (by
        simp only [List.length_append]
        have h1 := List.length_pos.mpr hcc_ne
        have h2 := List.length_pos.mpr hds_ne
        omega)
      (by simp only [List.length_append]; omega)
      (by
        intro c hc
        rcases List.mem_append.mp hc with h | h
        · exact hcc_dig c h
        · exact hds_dig c h)
      hsuf hsufd
    have hmem := extract_phones_emit p0 w ('+' :: (cc ++ ds)) suf (by simp)
      ⟨pe, by rw [hassoc]; exact hpe⟩
    have hassoc2 : ('+' :: (cc ++ ds)) ++ suf = '+' :: (cc ++ (ds ++ suf)) := by simp
    rw [hassoc2] at hmem
    exact hmem

set_option maxRecDepth 10000 in
/-- C9 witness: the amended claim at a concrete input whose prefix
itself contains an earlier `+`-token: from `x+1 2 y+3 4567` the spaced
token `+3 4567` is extracted, and from `x+1 2 y+34567` the contiguous
token `+34567` is extracted (in both texts the `+` follows the word
character `y`). -/
theorem C9_intl_phone_witness :
    ('+' :: ("3".data ++ (' ' :: "4567".data))) ∈
      extract_phones ("x+1 2 ".data ++ 'y' :: '+' :: ("3".data ++ (' ' :: ("4567".data ++ [])))) ∧
    ('+' :: ("3".data ++ "4567".data)) ∈
      extract_phones ("x+1 2 ".data ++ 'y' :: '+' :: ("3".data ++ ("4567".data ++ []))) := by
  have h := C9_intl_phone_amended "x+1 2 ".data 'y' "3".data "4567".data []
    (by decide) (by decide) (by decide) (by decide)
    (by decide) (by decide) (by decide)
  exact ⟨h.1 (by intro c hc; simp at hc),
    h.2 (by intro c hc; simp at hc) (by intro c s2 hc; simp at hc)⟩

set_option maxRecDepth 10000 in
/-- C9 counterexample: the claim as stated fails: with the token
standing alone (and likewise after whitespace) the leading `\b` cannot
hold before `+`, so `extract_phones` does not include
`+1 2345678901` — it only finds the bare 10-digit tail. -/
theorem C9_intl_phone_cex :
    "+1 2345678901".data ∉ extract_phones "+1 2345678901".data ∧
    extract_phones "+1 2345678901".data = ["2345678901".data] ∧
    "+1 2345678901".data ∉ extract_phones " +1 2345678901".data := by
  refine ⟨by decide, by decide, by decide⟩

/-- C10: every string in every entity list returned by `extract_all`
occurs as a contiguous substring of the input text (the scanner only
ever emits slices of the text). -/
theorem C10_matches_are_substrings (t x : List Char)
    (h : x ∈ (extract_all t).emails ∨ x ∈ (extract_all t).phones ∨
         x ∈ (extract_all t).dates ∨ x ∈ (extract_all t).amounts ∨
         x ∈ (extract_all t).urls) : x <:+: t := by
  have hph : x ∈ (extract_all t).phones → x <:+: t := by
    intro h
    have h2 := List.mem_dedup.mp h
    rcases List.mem_append.mp h2 with h3 | h3
    · rcases List.mem_append.mp h3 with h4 | h4
      · exact pyFindall_infix _ _ _ h4
      · exact pyFindall_infix _ _ _ h4
    · exact pyFindall_infix _ _ _ h3
  have hdt : x ∈ (extract_all t).dates → x <:+: t := by
    intro h
    have h2 := List.mem_dedup.mp h
    rcases List.mem_append.mp h2 with h3 | h3
    · rcases List.mem_append.mp h3 with h4 | h4
      · exact pyFindall_infix _ _ _ h4
      · exact pyFindall_infix _ _ _ h4
    · exact pyFindall_infix _ _ _ h3
  rcases h with h | h | h | h | h
  · exact pyFindall_infix _ _ _ (List.mem_dedup.mp h)
  · exact hph h
  · exact hdt h
  · exact pyFindall_infix _ _ _ (List.mem_dedup.mp h)
  · exact pyFindall_infix _ _ _ (List.mem_dedup.mp h)

set_option maxRecDepth 100000 in
/-- C10 witness: a concrete extracted email is a substring of its
text. -/
theorem C10_matches_are_substrings_witness :
    "a@b.com".data <:+: "Contact a@b.com or https://x.co".data :=
  C10_matches_are_substrings _ _ (Or.inl (by decide))
